import Mathlib

/-!
Verification of the ID-card OCR field-extraction pipeline.

This file gives a shallow embedding of the pure analytical core of the
repository — the regex-driven field parser (id_parser.py), the
class-based field extractor (field_extractors.py), the Document-AI
key/value merger (docAI.py) and the gutter line splitter (ocr_utils.py) —
and proves or refutes the specified properties of that code.

Strings are modelled as `List Char`; Python's regular expressions are
modelled by a small backtracking engine with leftmost-first (PCRE-style)
semantics, over which soundness and completeness with respect to an
inductive path semantics are proved.  Machine behaviour that the code
relies on (str.strip, str.splitlines, dict insertion order, re.sub,
greedy matching with word boundaries) is reproduced from the source; the
character classes for whitespace and word characters follow Python's
ASCII behaviour.
-/

set_option maxHeartbeats 1000000

namespace Py

/-- Whitespace characters (Python `\s` / `str.strip` default, ASCII range). -/
def isWs (c : Char) : Bool :=
  c = ' ' || c = '\t' || c = '\n' || c = '\x0d' || c = '\x0b' || c = '\x0c'

/-- Word characters (Python `\w`, ASCII range): letters, digits, underscore. -/
def isWord (c : Char) : Bool := c.isAlphanum || c = '_'

/-- ASCII uppercase letter. -/
def isUpperAZ (c : Char) : Bool := 'A' ≤ c && c ≤ 'Z'

/-- ASCII lowercase letter. -/
def isLowerAZ (c : Char) : Bool := 'a' ≤ c && c ≤ 'z'

/-- ASCII letter. -/
def isAlphaAZ (c : Char) : Bool := isUpperAZ c || isLowerAZ c

/-- ASCII digit. -/
def isDigit09 (c : Char) : Bool := '0' ≤ c && c ≤ '9'

/-- Python `str.lstrip()` on a character predicate. -/
def lstripP (p : Char → Bool) (cs : List Char) : List Char := cs.dropWhile p

/-- Python `str.rstrip()` on a character predicate. -/
def rstripP (p : Char → Bool) (cs : List Char) : List Char :=
  (cs.reverse.dropWhile p).reverse

/-- Python `str.strip()` on a character predicate. -/
def stripP (p : Char → Bool) (cs : List Char) : List Char :=
  rstripP p (lstripP p cs)

/-- Python `str.strip()` (default whitespace). -/
def strip (cs : List Char) : List Char := stripP isWs cs

/-- Python `str.lower()` (ASCII). -/
def lower (cs : List Char) : List Char := cs.map Char.toLower

/-- Python `str.upper()` (ASCII). -/
def upper (cs : List Char) : List Char := cs.map Char.toUpper

/-- Line-break characters recognised by Python `str.splitlines` (ASCII range). -/
def isNl (c : Char) : Bool :=
  c = '\n' || c = '\x0d' || c = '\x0b' || c = '\x0c' ||
  c = '\x1c' || c = '\x1d' || c = '\x1e' || c = '\x85'

/-- Worker for `splitlines`; `cur` is the current line reversed. -/
def splitlinesAux : List Char → List Char → List (List Char)
  | [], cur => if cur.isEmpty then [] else [cur.reverse]
  | [c], cur => if isNl c then [cur.reverse] else [(c :: cur).reverse]
  | c :: c2 :: rest, cur =>
    if c = '\x0d' then
      if c2 = '\n' then cur.reverse :: splitlinesAux rest []
      else cur.reverse :: splitlinesAux (c2 :: rest) []
    else if isNl c then cur.reverse :: splitlinesAux (c2 :: rest) []
    else splitlinesAux (c2 :: rest) (c :: cur)

/-- Python `str.splitlines()`: split at line breaks, `\r\n` counting as one,
with no trailing empty line. -/
def splitlines (cs : List Char) : List (List Char) := splitlinesAux cs []

/-- Join a list of strings with a separator (Python `sep.join`). -/
def joinSep (sep : List Char) : List (List Char) → List Char
  | [] => []
  | [x] => x
  | x :: xs => x ++ sep ++ joinSep sep xs

/-- Worker for `splitWs`; `cur` is the current word reversed. -/
def splitWsGo : List Char → List Char → List (List Char)
  | cur, [] => if cur.isEmpty then [] else [cur.reverse]
  | cur, c :: cs =>
    if isWs c then
      if cur.isEmpty then splitWsGo [] cs else cur.reverse :: splitWsGo [] cs
    else splitWsGo (c :: cur) cs

/-- Python `str.split()` with no argument: split on whitespace runs,
dropping empty pieces. -/
def splitWs (cs : List Char) : List (List Char) := splitWsGo [] cs

/-- Python `str.capitalize()` (ASCII): first character upper, rest lower. -/
def capitalize : List Char → List Char
  | [] => []
  | c :: cs => c.toUpper :: cs.map Char.toLower

/-- Python `str.isupper()` (ASCII): at least one cased character and no
lowercase cased character. -/
def pyIsUpper (cs : List Char) : Bool :=
  cs.any isAlphaAZ && cs.all (fun c => !isLowerAZ c)

/-- Python `str.isalpha()` (ASCII): nonempty and all letters. -/
def pyIsAlpha (cs : List Char) : Bool :=
  !cs.isEmpty && cs.all isAlphaAZ

/-- `pat` occurs at the start of `cs`. -/
def startsWithL : List Char → List Char → Bool
  | [], _ => true
  | _ :: _, [] => false
  | p :: ps, c :: cs => p = c && startsWithL ps cs

/-- Substring occurrence test. -/
def containsSub (pat : List Char) : List Char → Bool
  | [] => startsWithL pat []
  | c :: cs => startsWithL pat (c :: cs) || containsSub pat cs

/-- Python `str.replace(p, repl)` for a single-character pattern. -/
def replace1 (p : Char) (repl : List Char) : List Char → List Char
  | [] => []
  | c :: cs => (if c = p then repl else [c]) ++ replace1 p repl cs

/-- Python `str.replace(p1p2, repl)` for a two-character pattern:
leftmost, non-overlapping, all occurrences. -/
def replace2 (p1 p2 : Char) (repl : List Char) : List Char → List Char
  | [] => []
  | [c] => [c]
  | c :: c2 :: cs =>
    if c = p1 && c2 = p2 then repl ++ replace2 p1 p2 repl cs
    else c :: replace2 p1 p2 repl (c2 :: cs)

/-- Worker for `sub2ws`; `skipping` is true while inside a replaced run. -/
def sub2wsGo : Bool → List Char → List Char
  | _, [] => []
  | skipping, c :: cs =>
    if isWs c then
      if skipping then sub2wsGo true cs
      else
        match cs with
        | [] => [c]
        | c2 :: _ => if isWs c2 then ' ' :: sub2wsGo true cs else c :: sub2wsGo false cs
    else c :: sub2wsGo false cs

/-- `re.sub(r"\s{2,}", " ", s)`: collapse runs of two or more whitespace
characters to a single space; single whitespace characters are kept. -/
def sub2ws (cs : List Char) : List Char := sub2wsGo false cs

/-- Worker for `sub1ws`. -/
def sub1wsGo : Bool → List Char → List Char
  | _, [] => []
  | skipping, c :: cs =>
    if isWs c then
      if skipping then sub1wsGo true cs else ' ' :: sub1wsGo true cs
    else c :: sub1wsGo false cs

/-- `re.sub(r"\s+", " ", s)`: collapse every whitespace run to one space. -/
def sub1ws (cs : List Char) : List Char := sub1wsGo false cs

end Py

namespace Rx

/-- Regular-expression syntax used by the embedded patterns: character
classes, concatenation, prioritized alternation, greedy option, greedy
star over a character class, and the word-boundary assertion `\b`. -/
inductive RE where
  | eps
  | chr (p : Char → Bool)
  | seq (a b : RE)
  | alt (a b : RE)
  | opt (a : RE)
  | star (p : Char → Bool)
  | wb
deriving Inhabited

/-- `\b`: true when exactly one of the neighbouring characters is a word
character (absent neighbours count as non-word). -/
def boundary (prev next : Option Char) : Bool :=
  (match prev with | none => false | some c => Py.isWord c) !=
  (match next with | none => false | some c => Py.isWord c)

/-- Greedy star over a character class, in continuation-passing style:
consume as many class characters as possible, backtracking one at a time
into the continuation `k` (which receives the remaining input and the
last consumed character). -/
def runStar (p : Char → Bool) (k : List Char → Option Char → Option α) :
    List Char → Option Char → Option α
  | [], prev => k [] prev
  | c :: rest, prev =>
    if p c then
      match runStar p k rest (some c) with
      | some r => some r
      | none => k (c :: rest) prev
    else k (c :: rest) prev

/-- Backtracking matcher with Python/PCRE leftmost-first semantics:
alternatives are tried left to right, quantifiers greedily.  `prev` is the
character just before the current position (for `\b`), `k` the
continuation receiving the remaining input and new `prev`. -/
def run : RE → List Char → Option Char → (List Char → Option Char → Option α) → Option α
  | .eps, cs, prev, k => k cs prev
  | .chr p, cs, _, k =>
    match cs with
    | [] => none
    | c :: rest => if p c then k rest (some c) else none
  | .seq a b, cs, prev, k => run a cs prev (fun rest p1 => run b rest p1 k)
  | .alt a b, cs, prev, k =>
    match run a cs prev k with
    | some r => some r
    | none => run b cs prev k
  | .opt a, cs, prev, k =>
    match run a cs prev k with
    | some r => some r
    | none => k cs prev
  | .star p, cs, prev, k => runStar p k cs prev
  | .wb, cs, prev, k => if boundary prev cs.head? then k cs prev else none

/-- Python `re.match` at position 0: on success, return the remaining
input after the match (so `m.end()` is the original length minus the
remainder's length). -/
def matchRem (re : RE) (cs : List Char) : Option (List Char) :=
  run re cs none (fun rest _ => some rest)

/-- Python `re.fullmatch`: the whole input must be consumed. -/
def fullmatchB (re : RE) (cs : List Char) : Bool :=
  (run re cs none (fun rest _ => if rest.isEmpty then some () else none)).isSome

/-- One anchored attempt at the current position: on success return the
matched text and remainder. -/
def searchStep (re : RE) (cs : List Char) (prev : Option Char) :
    Option (List Char × List Char) :=
  (run re cs prev (fun rest _ => some rest)).map
    (fun rest => (cs.take (cs.length - rest.length), rest))

/-- Worker for `search`: try a match at each start position, threading the
previous character. -/
def searchFrom (re : RE) : List Char → Option Char → Option (List Char × List Char)
  | [], prev => searchStep re [] prev
  | c :: cs2, prev =>
    match searchStep re (c :: cs2) prev with
    | some r => some r
    | none => searchFrom re cs2 (some c)

/-- Python `re.search`: leftmost match; returns (matched text, remainder). -/
def search (re : RE) (cs : List Char) : Option (List Char × List Char) :=
  searchFrom re cs none

/-- Python `re.search` as a Boolean test. -/
def searchB (re : RE) (cs : List Char) : Bool := (search re cs).isSome

/-- Case-sensitive literal. -/
def lit (s : String) : RE :=
  s.toList.foldr (fun c acc => .seq (.chr (fun x => x = c)) acc) .eps

/-- Case-insensitive literal (`re.IGNORECASE`, ASCII). -/
def cilit (s : String) : RE :=
  s.toList.foldr (fun c acc => .seq (.chr (fun x => x.toLower = c.toLower)) acc) .eps

/-- `p{n}`: exactly `n` characters of a class. -/
def chN (p : Char → Bool) : Nat → RE
  | 0 => .eps
  | n + 1 => .seq (.chr p) (chN p n)

/-- `(p?){n}` with each option greedy: up to `n` characters of a class. -/
def optsN (p : Char → Bool) : Nat → RE
  | 0 => .eps
  | n + 1 => .seq (.opt (.chr p)) (optsN p n)

/-- `p{lo,hi}` greedy. -/
def rep (p : Char → Bool) (lo hi : Nat) : RE := .seq (chN p lo) (optsN p (hi - lo))

/-- `p{lo,}` greedy. -/
def repMin (p : Char → Bool) (lo : Nat) : RE := .seq (chN p lo) (.star p)

/-- `\s*` -/
def wsStar : RE := .star Py.isWs

/-- `\s+` -/
def wsPlus : RE := .seq (.chr Py.isWs) (.star Py.isWs)

/-- Syntactic absence of the word-boundary assertion. -/
def wbFree : RE → Bool
  | .eps => true
  | .chr _ => true
  | .seq a b => wbFree a && wbFree b
  | .alt a b => wbFree a && wbFree b
  | .opt a => wbFree a
  | .star _ => true
  | .wb => false

/-- Path semantics: `Path re cs prev n p1` states that `re` can consume
exactly the first `n` characters of `cs` (given previous character
`prev`), ending with last-consumed character `p1` (`prev` if nothing was
consumed). -/
inductive Path : RE → List Char → Option Char → Nat → Option Char → Prop where
  | eps : Path .eps cs prev 0 prev
  | chr {p : Char → Bool} {c : Char} {rest : List Char} {prev : Option Char}
      (h : p c = true) : Path (.chr p) (c :: rest) prev 1 (some c)
  | seq {a b : RE} {cs : List Char} {prev p1 p2 : Option Char} {n m : Nat}
      (h1 : Path a cs prev n p1) (h2 : Path b (cs.drop n) p1 m p2) :
      Path (.seq a b) cs prev (n + m) p2
  | altL {a b : RE} (h : Path a cs prev n p1) : Path (.alt a b) cs prev n p1
  | altR {a b : RE} (h : Path b cs prev n p1) : Path (.alt a b) cs prev n p1
  | optSome {a : RE} (h : Path a cs prev n p1) : Path (.opt a) cs prev n p1
  | optNone {a : RE} : Path (.opt a) cs prev 0 prev
  | starNil {p : Char → Bool} : Path (.star p) cs prev 0 prev
  | starCons {p : Char → Bool} {c : Char} {rest : List Char} {prev p1 : Option Char} {n : Nat}
      (h : p c = true) (h2 : Path (.star p) rest (some c) n p1) :
      Path (.star p) (c :: rest) prev (n + 1) p1
  | wb (h : boundary prev cs.head? = true) : Path .wb cs prev 0 prev

/-- An expression that can never match the empty string. -/
def nonNullable : RE → Bool
  | .eps => false
  | .chr _ => true
  | .seq a b => nonNullable a || nonNullable b
  | .alt a b => nonNullable a && nonNullable b
  | .opt _ => false
  | .star _ => false
  | .wb => false

/-- Every nonempty match of the expression starts with a character of
class `q`. -/
def StartsIn (q : Char → Bool) : RE → Prop
  | .eps => True
  | .chr p => ∀ c, p c = true → q c = true
  | .seq a b => StartsIn q a ∧ (nonNullable a = true ∨ StartsIn q b)
  | .alt a b => StartsIn q a ∧ StartsIn q b
  | .opt a => StartsIn q a
  | .star p => ∀ c, p c = true → q c = true
  | .wb => True

/-- Every nonempty match of the expression ends with a character of
class `q`. -/
def EndsIn (q : Char → Bool) : RE → Prop
  | .eps => True
  | .chr p => ∀ c, p c = true → q c = true
  | .seq a b => EndsIn q b ∧ (nonNullable b = true ∨ EndsIn q a)
  | .alt a b => EndsIn q a ∧ EndsIn q b
  | .opt a => EndsIn q a
  | .star p => ∀ c, p c = true → q c = true
  | .wb => True

end Rx

namespace Dict

/-- Python-dict assignment on an ordered association list: update the
existing entry in place, else append. -/
def aset [DecidableEq α] (d : List (α × β)) (k : α) (v : β) : List (α × β) :=
  if d.any (fun kv => kv.1 = k) then d.map (fun kv => if kv.1 = k then (k, v) else kv)
  else d ++ [(k, v)]

/-- Python-dict lookup. -/
def aget [DecidableEq α] (d : List (α × β)) (k : α) : Option β :=
  (d.find? (fun kv => kv.1 = k)).map Prod.snd

/-- Python-dict membership. -/
def ahas [DecidableEq α] (d : List (α × β)) (k : α) : Bool :=
  d.any (fun kv => kv.1 = k)

end Dict

namespace IdParser

open Py Rx

/-! Embedding of `id_parser.py`. -/

/-- `re.compile(r"\b(getty|istock|shutterstock|depositphotos|adobe\s*stock|pixabay|pexels)\b", re.IGNORECASE)` -/
def blacklistRE : RE :=
  .seq .wb (.seq
    (.alt (cilit "getty")
    (.alt (cilit "istock")
    (.alt (cilit "shutterstock")
    (.alt (cilit "depositphotos")
    (.alt (.seq (cilit "adobe") (.seq wsStar (cilit "stock")))
    (.alt (cilit "pixabay") (cilit "pexels")))))))
    .wb)

/-- A line is dropped by `parse_id_fields` when the blacklist matches it. -/
def blacklistB (ln : List Char) : Bool := searchB blacklistRE ln

/-- Bodies of the `LABEL_MAP` patterns, in table order. -/
def nameBody : RE := .alt (cilit "name") (.seq (cilit "student") (.seq wsStar (cilit "name")))

/-- literal dot -/
def chDot : RE := .chr (fun c => c = '.')

/-- `d(?:\.?\s*o\.?\s*b\.?|ate\s*of\s*birth)` -/
def dobBody : RE :=
  .seq (cilit "d")
    (.alt
      (.seq (.opt chDot) (.seq wsStar (.seq (cilit "o")
        (.seq (.opt chDot) (.seq wsStar (.seq (cilit "b") (.opt chDot)))))))
      (.seq (cilit "ate") (.seq wsStar (.seq (cilit "of") (.seq wsStar (cilit "birth"))))))

/-- `(?:admission\s*no\.?|adm\s*no\.?|student\s*id|id)` -/
def admNoBody : RE :=
  .alt (.seq (cilit "admission") (.seq wsStar (.seq (cilit "no") (.opt chDot))))
  (.alt (.seq (cilit "adm") (.seq wsStar (.seq (cilit "no") (.opt chDot))))
  (.alt (.seq (cilit "student") (.seq wsStar (cilit "id")))
        (cilit "id")))

/-- `(?:phone|tel)` -/
def phoneBody : RE := .alt (cilit "phone") (cilit "tel")

/-- `website` -/
def websiteBody : RE := cilit "website"

/-- `(?:email|e-?mail)` -/
def emailBody : RE :=
  .alt (cilit "email") (.seq (cilit "e") (.seq (.opt (.chr (fun c => c = '-'))) (cilit "mail")))

/-- `(?:social(?:\s*media)?|socialmedia)` -/
def socialBody : RE :=
  .alt (.seq (cilit "social") (.opt (.seq wsStar (cilit "media")))) (cilit "socialmedia")

/-- `(?:address|addr)` -/
def addressBody : RE := .alt (cilit "address") (cilit "addr")

/-- `(?:school|college|university)` -/
def schoolBody : RE := .alt (cilit "school") (.alt (cilit "college") (cilit "university"))

/-- `(?:student\s*id\s*card|id\s*card|.*identification\s*card)` -/
def cardTypeBody : RE :=
  .alt (.seq (cilit "student") (.seq wsStar (.seq (cilit "id") (.seq wsStar (cilit "card")))))
  (.alt (.seq (cilit "id") (.seq wsStar (cilit "card")))
        (.seq (.star (fun c => c ≠ '\n'))
          (.seq (cilit "identification") (.seq wsStar (cilit "card")))))

/-- `LABEL_RE[k] = re.compile(rf"^\s*(?:{pat})\b\s*: ?\s*", re.IGNORECASE)` -/
def labelWrap (body : RE) : RE :=
  .seq wsStar (.seq body (.seq .wb
    (.seq wsStar (.seq (.chr (fun c => c = ':'))
      (.seq (.opt (.chr (fun c => c = ' '))) wsStar)))))

/-- The ordered label table (`LABEL_MAP` / `LABEL_RE`, dict insertion order). -/
def labelTable : List (String × RE) :=
  [("name", labelWrap nameBody),
   ("dob", labelWrap dobBody),
   ("adm_no", labelWrap admNoBody),
   ("phone", labelWrap phoneBody),
   ("website", labelWrap websiteBody),
   ("email", labelWrap emailBody),
   ("social", labelWrap socialBody),
   ("address", labelWrap addressBody),
   ("school", labelWrap schoolBody),
   ("card_type", labelWrap cardTypeBody)]

/-- `for key, rx in LABEL_RE.items(): m = rx.match(ln)` — first match in
table order; on a hit return the key and `ln[m.end():]`. -/
def classifyAux : List (String × RE) → List Char → Option (String × List Char)
  | [], _ => none
  | (k, re) :: rest, ln =>
    match matchRem re ln with
    | some rem => some (k, rem)
    | none => classifyAux rest ln

/-- Classify one line against the label table. -/
def classify (ln : List Char) : Option (String × List Char) := classifyAux labelTable ln

/-- `_clean_spaces`. -/
def cleanSpaces (s : List Char) : List Char :=
  let s1 := sub2ws (strip s)
  let s2 := replace2 ' ' ',' [','] s1
  let s3 := replace2 ' ' '.' ['.'] s2
  strip s3

/-- Worker modelling `re.sub(r"\s*-\s*", "-", s)` (and, with other
parameters, `re.sub(r"\s*:\s*", " : ", s)`): every occurrence of the
separator with the whitespace around it is replaced by `repl`.  `wsbuf`
holds pending unresolved whitespace (reversed); `afterD` is true directly
after a replacement, whose trailing whitespace is absorbed. -/
def subAroundGo (d : Char) (repl : List Char) : Bool → List Char → List Char → List Char
  | _, wsbuf, [] => wsbuf.reverse
  | afterD, wsbuf, c :: cs =>
    if c = d then repl ++ subAroundGo d repl true [] cs
    else if isWs c then
      if afterD then subAroundGo d repl true wsbuf cs
      else subAroundGo d repl false (c :: wsbuf) cs
    else wsbuf.reverse ++ c :: subAroundGo d repl false [] cs

/-- `re.sub(r"\s*-\s*", "-", s)` -/
def subDashWs (cs : List Char) : List Char := subAroundGo '-' ['-'] false [] cs

/-- `re.sub(r"\s*:\s*", " : ", s)` -/
def subColonWs (cs : List Char) : List Char := subAroundGo ':' [' ', ':', ' '] false [] cs

/-- `_normalize_phone`. -/
def normalizePhone (s : List Char) : List Char :=
  let s1 := s.filter (fun c => isDigit09 c || c = '-' || c = '(' || c = ')' || c = '.' || isWs c)
  let s2 := strip (sub1ws s1)
  subDashWs s2

/-- Decide `$` plus trailing-path structure for `_normalize_site`'s
`(/.*)?$` tail given the input after the domain: return the path group
when the regex tail can match. -/
def sitePathOk : List Char → Option (List Char)
  | [] => some []
  | ['\n'] => some []
  | '/' :: rest2 =>
    if ('/' :: rest2).all (fun c => c ≠ '\n') then some ('/' :: rest2)
    else if ('/' :: rest2).getLast? = some '\n' &&
            ('/' :: rest2).dropLast.all (fun c => c ≠ '\n') then
      some (('/' :: rest2).dropLast)
    else none
  | _ => none

/-- The `re.match(r"(?:(https?)://)?([^/\s]+)(/.*)?$", s)` step of
`_normalize_site`: returns (scheme, domain, path) on a match. -/
def siteMatch (s : List Char) : Option (List Char × List Char × List Char) :=
  let attempt : List Char → List Char → Option (List Char × List Char × List Char) :=
    fun sch rest1 =>
      let domain := rest1.takeWhile (fun c => !(c = '/' || isWs c))
      let after := rest1.dropWhile (fun c => !(c = '/' || isWs c))
      if domain.isEmpty then none
      else
        match sitePathOk after with
        | some path => some (sch, domain, path)
        | none => none
  if startsWithL "https://".toList s then
    match attempt "https".toList (s.drop 8) with
    | some r => some r
    | none => attempt [] s
  else if startsWithL "http://".toList s then
    match attempt "http".toList (s.drop 7) with
    | some r => some r
    | none => attempt [] s
  else attempt [] s

/-- `_normalize_site`. -/
def normalizeSite (s0 : List Char) : List Char :=
  let s := strip s0
  -- re.sub(r"^WWW\b", "www", s, flags=re.IGNORECASE)
  let s :=
    match s with
    | c1 :: c2 :: c3 :: rest =>
      if (c1.toLower = 'w' && c2.toLower = 'w' && c3.toLower = 'w') &&
         (match rest with | [] => true | d :: _ => !isWord d) then
        'w' :: 'w' :: 'w' :: rest
      else s
    | _ => s
  -- re.sub(r"^www(?!\.)", "www.", s)  (case-sensitive, negative lookahead)
  let s :=
    match s with
    | 'w' :: 'w' :: 'w' :: rest =>
      (match rest with
       | '.' :: _ => 'w' :: 'w' :: 'w' :: rest
       | _ => 'w' :: 'w' :: 'w' :: '.' :: rest)
    | _ => s
  let s :=
    match splitWs s with
    | [p1, p2] =>
      if startsWithL "www".toList (lower p1) then p1 ++ '.' :: p2.dropWhile (fun c => c = '.')
      else s
    | _ => s
  match siteMatch s with
  | some (sch, dom, path) =>
    (if sch.isEmpty then [] else lower sch ++ "://".toList) ++ lower dom ++ path
  | none => s

/-- digit class for the date pattern -/
def dig : Char → Bool := isDigit09

/-- date-separator class: slash or dash -/
def slashDash (c : Char) : Bool := c = '/' || c = '-'

/-- The alternation inside `_DATE_RE` (without the surrounding `\b`). -/
def dateBody : RE :=
  .alt (.seq (rep dig 1 2) (.seq (.chr slashDash)
         (.seq (rep dig 1 2) (.seq (.chr slashDash) (rep dig 2 4)))))
  (.alt (.seq (rep isAlphaAZ 3 9) (.seq wsPlus
         (.seq (rep dig 1 2) (.seq (lit ",") (.seq wsStar (chN dig 4))))))
        (.seq (chN dig 4) (.seq (.chr slashDash)
         (.seq (rep dig 1 2) (.seq (.chr slashDash) (rep dig 1 2))))))

/-- `_DATE_RE`. -/
def dateRE : RE := .seq .wb (.seq dateBody .wb)

/-- `_is_date`. -/
def isDate (s : List Char) : Bool :=
  let t := strip s
  fullmatchB dateRE t || searchB dateRE t

/-- `re.search(r"(IDENTIFICATION\s*CARD|ID\s*CARD)", ln, re.IGNORECASE)` -/
def idCardRE : RE :=
  .alt (.seq (cilit "identification") (.seq wsStar (cilit "card")))
       (.seq (cilit "id") (.seq wsStar (cilit "card")))

/-- `re.search(r"(.*\b(?:SCHOOL|COLLEGE|UNIVERSITY)\b)", s, re.IGNORECASE)` -/
def schoolGrpRE : RE :=
  .seq (.star (fun c => c ≠ '\n'))
    (.seq .wb (.seq (.alt (cilit "school") (.alt (cilit "college") (cilit "university"))) .wb))

/-- Header scan of `_merge_header_school`: collect consecutive all-caps
lines, resetting on an interruption, stopping at a card line. -/
def headerScan (acc : List (List Char)) : List (List Char) → List (List Char)
  | [] => acc
  | ln :: rest =>
    if searchB idCardRE ln then acc
    else if pyIsUpper ln && ln.any isUpperAZ then headerScan (acc ++ [ln]) rest
    else headerScan [] rest

/-- `_merge_header_school`. -/
def mergeHeaderSchool (lines : List (List Char)) : List Char :=
  let header := headerScan [] lines
  if header.isEmpty then []
  else
    let s := strip (joinSep [' '] header)
    match search schoolGrpRE s with
    | some (g, _) => strip g
    | none => s

/-- Ordered dictionary on string keys (Python dict: insertion order,
update in place). -/
abbrev PDict := List (String × List Char)

/-- dict membership -/
def dhas (d : PDict) (k : String) : Bool := Dict.ahas d k

/-- dict lookup -/
def dget (d : PDict) (k : String) : Option (List Char) := Dict.aget d k

/-- dict assignment: update in place, else append. -/
def dset (d : PDict) (k : String) (v : List Char) : PDict := Dict.aset d k v

/-- dict setdefault -/
def dsetdefault (d : PDict) (k : String) (v : List Char) : PDict :=
  if dhas d k then d else d ++ [(k, v)]

/-- State of the main line walk: (out, pending, values). -/
abbrev WalkSt := PDict × List String × List (List Char)

/-- One iteration of the main `while i < N` loop of `parse_id_fields`. -/
def walkStep (st : WalkSt) (ln0 : List Char) : WalkSt :=
  let (out, pending, values) := st
  let ln := cleanSpaces ln0
  match classify ln with
  | some (key, rem) =>
    let val := cleanSpaces rem
    if val ≠ [] then
      let val := if key = "website" then normalizeSite val else val
      let val := if key = "phone" then normalizePhone val else val
      let val :=
        if key = "card_type" then
          (if containsSub "card".toList (lower val) then "STUDENT ID CARD".toList else upper val)
        else val
      (dset out key val, pending, values)
    else (out, pending ++ [key], values)
  | none => (out, pending, values ++ [ln])

/-- `re.sub(r",\s*", ", ", v)` -/
def subCommaGo : Bool → List Char → List Char
  | _, [] => []
  | sk, c :: cs =>
    if c = ',' then ',' :: ' ' :: subCommaGo true cs
    else if isWs c then (if sk then subCommaGo true cs else c :: subCommaGo false cs)
    else c :: subCommaGo false cs

/-- `re.sub(r"\.(?=\S)", ". ", v)`: a dot followed by a non-space gets a
space inserted after it (the lookahead does not consume). -/
def subDotGo : List Char → List Char
  | [] => []
  | ['.'] => ['.']
  | '.' :: c :: cs =>
    if isWs c then '.' :: subDotGo (c :: cs) else '.' :: ' ' :: subDotGo (c :: cs)
  | c :: cs => c :: subDotGo cs

/-- Assignment of a pending label's value (`for key in pending` body). -/
def assignKey (out : PDict) (key : String) (v : List Char) : PDict :=
  if key = "website" then dset out key (normalizeSite v)
  else if key = "phone" then dset out key (normalizePhone v)
  else if key = "address" then
    let v1 := subCommaGo false v
    let v2 := subDotGo v1
    dset out key (stripP (fun c => c = ' ' || c = '.' || c = ',') (sub2ws v2))
  else if key = "dob" then (if isDate v then dset out key v else out)
  else if key = "adm_no" then dset out key v
  else if key = "card_type" then dset out key "STUDENT ID CARD".toList
  else dset out key v

/-- The `for key in pending` loop: each key consumes one value (two when
the dob skip rule fires); stops when the values run out. -/
def assignPending (out : PDict) : List String → List (List Char) → PDict
  | [], _ => out
  | _ :: _, [] => out
  | key :: ks, v0 :: vs =>
    let v := strip v0
    if key = "dob" && !isDate v &&
       (match vs with | v2 :: _ => isDate v2 | [] => false) then
      match vs with
      | v2 :: vs' => assignPending (assignKey out key (strip v2)) ks vs'
      | [] => out
    else assignPending (assignKey out key v) ks vs

/-- email fallback pattern `[A-Za-z0-9._%+-]+@[A-Za-z0-9.-]+\.[A-Za-z]{2,}` -/
def emailRE : RE :=
  .seq (repMin (fun c => isAlphaAZ c || isDigit09 c || c = '.' || c = '_' || c = '%' || c = '+' || c = '-') 1)
    (.seq (.chr (fun c => c = '@'))
      (.seq (repMin (fun c => isAlphaAZ c || isDigit09 c || c = '.' || c = '-') 1)
        (.seq (.chr (fun c => c = '.')) (repMin isAlphaAZ 2))))

/-- domain-character class `[A-Za-z0-9\-.]` -/
def domCls (c : Char) : Bool := isAlphaAZ c || isDigit09 c || c = '-' || c = '.'

/-- website fallback pattern `(?:https?://)?(?:www\.|WWW)[A-Za-z0-9\-.]+\.[A-Za-z]{2,}(?:/[^\s]*)?` -/
def websiteRE1 : RE :=
  .seq (.opt (.seq (lit "http") (.seq (.opt (.chr (fun c => c = 's'))) (lit "://"))))
    (.seq (.alt (lit "www.") (lit "WWW"))
      (.seq (repMin domCls 1)
        (.seq (.chr (fun c => c = '.'))
          (.seq (repMin isAlphaAZ 2)
            (.opt (.seq (.chr (fun c => c = '/')) (.star (fun c => !isWs c))))))))

/-- website fallback pattern `(?:https?://)?[A-Za-z0-9\-.]+\.[A-Za-z]{2,}(?:/[^\s]*)?` -/
def websiteRE2 : RE :=
  .seq (.opt (.seq (lit "http") (.seq (.opt (.chr (fun c => c = 's'))) (lit "://"))))
    (.seq (repMin domCls 1)
      (.seq (.chr (fun c => c = '.'))
        (.seq (repMin isAlphaAZ 2)
          (.opt (.seq (.chr (fun c => c = '/')) (.star (fun c => !isWs c)))))))

/-- identifier-run class: digit, whitespace, dash, slash or dot -/
def idRunCls (c : Char) : Bool := isDigit09 c || isWs c || c = '-' || c = '/' || c = '.'

/-- identifier fallback pattern: word boundary, a digit, then six or more
run-class characters (greedy), then a word boundary -/
def idRunRE : RE :=
  .seq .wb (.seq (.chr isDigit09) (.seq (chN idRunCls 6) (.seq (.star idRunCls) .wb)))

/-- The labelling part of `parse_id_fields`: the card header scan, the
school header merge, the main line walk and the pending-label assignment
(everything before fallback mining). -/
def labelPhase (lines : List (List Char)) : PDict :=
  let out0 : PDict :=
    if lines.any (fun ln => searchB idCardRE ln) then
      dsetdefault [] "card_type" "STUDENT ID CARD".toList
    else []
  let schoolHdr := mergeHeaderSchool lines
  let out1 := if schoolHdr ≠ [] then dset out0 "school" schoolHdr else out0
  let st := lines.foldl walkStep ((out1, [], []) : WalkSt)
  let out2 := st.1
  let pending := st.2.1
  let values := st.2.2
  let cleanValues := values.filter (fun v => !(classify v).isSome && v ≠ [':'])
  assignPending out2 pending cleanValues

/-- Fallback email mining: `if "email" not in out: m = _EMAIL.search(blob); ...` -/
def fbEmail (blob : List Char) (d : PDict) : PDict :=
  if !dhas d "email" then
    match search emailRE blob with
    | some (g, _) => dset d "email" g
    | none => d
  else d

/-- Fallback website mining (two patterns, first match wins). -/
def fbWebsite (blob : List Char) (d : PDict) : PDict :=
  if !dhas d "website" then
    match search websiteRE1 blob with
    | some (g, _) => dset d "website" (normalizeSite g)
    | none =>
      match search websiteRE2 blob with
      | some (g, _) => dset d "website" (normalizeSite g)
      | none => d
  else d

/-- Fallback date-of-birth mining. -/
def fbDob (blob : List Char) (d : PDict) : PDict :=
  if !dhas d "dob" then
    match search dateRE blob with
    | some (g, _) => dset d "dob" g
    | none => d
  else d

/-- Fallback identifier mining (skipping matches that strip to a leading plus). -/
def fbAdm (blob : List Char) (d : PDict) : PDict :=
  if !dhas d "adm_no" then
    match search idRunRE blob with
    | some (g, _) =>
      if !startsWithL ['+'] (strip g) then dset d "adm_no" g else d
    | none => d
  else d

/-- Final phone normalization pass. -/
def fbPhone (d : PDict) : PDict :=
  match dget d "phone" with
  | some v => dset d "phone" (normalizePhone v)
  | none => d

/-- Final website normalization pass. -/
def fbSite2 (d : PDict) : PDict :=
  match dget d "website" with
  | some v => dset d "website" (normalizeSite v)
  | none => d

/-- Final card-type upper-casing pass. -/
def fbCard (d : PDict) : PDict :=
  match dget d "card_type" with
  | some v => dset d "card_type" (upper v)
  | none => d

/-- The fallback-mining and final normalization passes of
`parse_id_fields`, applied to the labelling result. -/
def fallbackPhase (lines : List (List Char)) (out3 : PDict) : PDict :=
  let blob := joinSep [' '] lines
  fbCard (fbSite2 (fbPhone (fbAdm blob (fbDob blob (fbWebsite blob (fbEmail blob out3))))))

/-- `parse_id_fields` from the filtered lines. -/
def parseCore (lines : List (List Char)) : PDict :=
  fallbackPhase lines (labelPhase lines)

/-- `raw_lines = [ln.strip() for ln in text.splitlines() if ln.strip()]` -/
def rawLinesOf (text : List Char) : List (List Char) :=
  ((splitlines text).map strip).filter (fun ln => ln ≠ [])

/-- A line survives the blacklist filter. -/
def goodLine (ln : List Char) : Bool := !blacklistB ln

/-- `lines = [ln for ln in raw_lines if not BLACKLIST.search(ln)]` -/
def goodLinesOf (text : List Char) : List (List Char) :=
  (rawLinesOf text).filter goodLine

/-- `parse_id_fields`. -/
def parseIdFields (text : List Char) : PDict :=
  parseCore (goodLinesOf text)

/-- A line carries no same-line date-of-birth value: either it is not a
`dob`-labelled line, or the text after the label cleans to nothing (so the
label goes to `pending` and its later value passes the `_is_date` gate). -/
def sameLineDobEmpty (ln0 : List Char) : Bool :=
  match classify (cleanSpaces ln0) with
  | some (key, rem) => decide (key ≠ "dob") || decide (cleanSpaces rem = [])
  | none => true

/-- `tidy_text`'s main loop; `acc` is `out` reversed.  A line `":"` with
nonempty output merges the following line into the previous output line
and skips it (`i += 2`); otherwise colons are space-padded and a line
starting with `":"` after padding would merge into the previous line. -/
def tidyGo : List (List Char) → List (List Char) → List (List Char)
  | acc, [] => acc.reverse
  | last :: accTail, ln :: r :: rr =>
    if ln = [':'] then
      tidyGo ((rstripP (fun c => c = ' ' || c = ':') last ++ " : ".toList ++ strip r) :: accTail) rr
    else
      let ln2 := subColonWs ln
      if ln2.head? = some ':' then
        tidyGo ((rstripP (fun c => c = ' ' || c = ':') last ++ " : ".toList ++ strip ln2.tail) :: accTail) (r :: rr)
      else tidyGo (ln2 :: last :: accTail) (r :: rr)
  | last :: accTail, [ln] =>
    if ln = [':'] then
      tidyGo ((rstripP (fun c => c = ' ' || c = ':') last ++ " : ".toList) :: accTail) []
    else
      let ln2 := subColonWs ln
      if ln2.head? = some ':' then
        tidyGo ((rstripP (fun c => c = ' ' || c = ':') last ++ " : ".toList ++ strip ln2.tail) :: accTail) []
      else tidyGo (ln2 :: last :: accTail) []
  | [], ln :: rest => tidyGo [subColonWs ln] rest

/-- `tidy_text`. -/
def tidyText (text : List Char) : List Char :=
  joinSep ['\n'] (tidyGo [] (((splitlines text).map strip).filter (fun ln => ln ≠ [])))

end IdParser

namespace FieldExt

open Py Rx IdParser

/-! Embedding of `field_extractors.py` (`StudentIDFieldExtractor`). -/

/-- `^(?:name|student\s*name)\b` -/
def feNameBody : RE := .alt (lit "name") (.seq (lit "student") (.seq wsStar (lit "name")))

/-- `^(?:d\.?o\.?b\.?|date\s*of\s*birth)\b` -/
def feDobBody : RE :=
  .alt (.seq (lit "d") (.seq (.opt chDot) (.seq (lit "o") (.seq (.opt chDot)
        (.seq (lit "b") (.opt chDot))))))
       (.seq (lit "date") (.seq wsStar (.seq (lit "of") (.seq wsStar (lit "birth")))))

/-- `^(?:adm\s*no\.?|admn?o\.?|admission\s*no\.?|id)\b` -/
def feAdmNoBody : RE :=
  .alt (.seq (lit "adm") (.seq wsStar (.seq (lit "no") (.opt chDot))))
  (.alt (.seq (lit "adm") (.seq (.opt (.chr (fun c => c = 'n'))) (.seq (lit "o") (.opt chDot))))
  (.alt (.seq (lit "admission") (.seq wsStar (.seq (lit "no") (.opt chDot))))
        (lit "id")))

/-- `^(?:phone|tel)\b` -/
def fePhoneBody : RE := .alt (lit "phone") (lit "tel")

/-- `^(?:website)\b` -/
def feWebsiteBody : RE := lit "website"

/-- `^(?:email|e-mail)\b` -/
def feEmailBody : RE := .alt (lit "email") (lit "e-mail")

/-- `^(?:social|social\s*media)\b` -/
def feSocialBody : RE := .alt (lit "social") (.seq (lit "social") (.seq wsStar (lit "media")))

/-- `^(?:address|addr)\b` -/
def feAddressBody : RE := .alt (lit "address") (lit "addr")

/-- `^(?:school|college|university)\b` -/
def feSchoolBody : RE := .alt (lit "school") (.alt (lit "college") (lit "university"))

/-- `^(?:student\s*id\s*card|id\s*card)\b` -/
def feCardTypeBody : RE :=
  .alt (.seq (lit "student") (.seq wsStar (.seq (lit "id") (.seq wsStar (lit "card")))))
       (.seq (lit "id") (.seq wsStar (lit "card")))

/-- `LABEL_PATTERNS`, in dict insertion order, each anchored and followed
by a word boundary. -/
def feTable : List (String × RE) :=
  [("name", .seq feNameBody .wb),
   ("dob", .seq feDobBody .wb),
   ("adm_no", .seq feAdmNoBody .wb),
   ("phone", .seq fePhoneBody .wb),
   ("website", .seq feWebsiteBody .wb),
   ("email", .seq feEmailBody .wb),
   ("social", .seq feSocialBody .wb),
   ("address", .seq feAddressBody .wb),
   ("school", .seq feSchoolBody .wb),
   ("card_type", .seq feCardTypeBody .wb)]

/-- `_is_label`: normalize the line, then first matching pattern in table
order; empty string when none matches. -/
def isLabel (line : List Char) : String :=
  let s := sub1ws (lower (strip line))
  let rec go : List (String × RE) → String
    | [] => ""
    | (k, re) :: rest => if (matchRem re s).isSome then k else go rest
  go feTable

/-- `_after_colon_value`: `re.search(r"[:\-]\s*(.+)$", line)` — the text
after the first colon or dash that is followed by at least one character,
stripped (assuming the line contains no newline, as produced by
splitlines). -/
def afterColonValue : List Char → List Char
  | [] => []
  | c :: rest =>
    if (c = ':' || c = '-') && rest ≠ [] then strip rest
    else afterColonValue rest

/-- `_clean_address`. -/
def cleanAddress (s : List Char) : List Char :=
  let s1 := sub2ws s
  let s2 := replace2 ' ' ',' [','] s1
  let s3 := replace2 ' ' '.' ['.'] s2
  let s4 := replace2 '.' ',' ['.'] s3
  stripP (fun c => c = ' ' || c = ',' || c = '.') s4

/-- `_title_name`. -/
def titleName (s : List Char) : List Char :=
  if pyIsUpper s && s.length ≤ 4 then s
  else joinSep [' '] ((splitWs s).map (fun w => if pyIsAlpha w then capitalize w else w))

/-- separator-only lines dropped up front: `re.fullmatch(r"[_\-â€“=~]+", ln)`
(the three middle characters are the mojibake bytes present in the source). -/
def sepLineCls (c : Char) : Bool :=
  c = '_' || c = '-' || c = 'â' || c = '€' || c = '“' || c = '=' || c = '~'

/-- `ln.upper() == ln` (ASCII): no lowercase letters. -/
def noLower (cs : List Char) : Bool := cs.all (fun c => !isLowerAZ c)

/-- Header merging: two consecutive ALL-CAPS lines merge when the second
is short uppercase-and-spaces. -/
def mergeCaps : List (List Char) → List (List Char)
  | [] => []
  | [cur] => [cur]
  | cur :: nxt :: rest =>
    if !nxt.isEmpty && pyIsUpper nxt &&
       (!nxt.isEmpty && nxt.all (fun c => isUpperAZ c || isWs c)) && nxt.length ≤ 12 then
      strip (cur ++ ' ' :: nxt) :: mergeCaps rest
    else cur :: mergeCaps (nxt :: rest)

/-- `re.search(r"\b(SCHOOL|COLLEGE|UNIVERSITY)\b", h)` (case-sensitive). -/
def schoolHdrRE : RE :=
  .seq .wb (.seq (.alt (lit "SCHOOL") (.alt (lit "COLLEGE") (lit "UNIVERSITY"))) .wb)

/-- `re.search(r"\bSTUDENT\s*ID\s*CARD\b", h)` (case-sensitive). -/
def cardHdrRE : RE :=
  .seq .wb (.seq (lit "STUDENT") (.seq wsStar (.seq (lit "ID")
    (.seq wsStar (.seq (lit "CARD") .wb)))))

/-- The `social` label merge: absorb following lines equal to `media`. -/
def socialMergeGo (lines : List (List Char)) : Nat → List Char → Nat → List Char × Nat
  | 0, labelLine, j => (labelLine, j)
  | fuel + 1, labelLine, j =>
    if j + 1 < lines.length && lower (strip (lines.getD (j+1) [])) = "media".toList then
      socialMergeGo lines fuel (strip (labelLine ++ ' ' :: lines.getD (j+1) [])) (j + 1)
    else (labelLine, j)

/-- Gathering of value lines until the next label; returns the collected
lines and the stopping index `k`. -/
def gatherGo (lines : List (List Char)) : Nat → Nat → List (List Char) → List (List Char) × Nat
  | 0, k, acc => (acc, k)
  | fuel + 1, k, acc =>
    if k < lines.length then
      let nxt := lines.getD k []
      if isLabel nxt ≠ "" then (acc, k)
      else
        let acc2 := if nxt ≠ [] && !nxt.all (fun c => !isWord c) then acc ++ [nxt] else acc
        gatherGo lines fuel (k + 1) acc2
    else (acc, k)

/-- Store one extracted field (the `if value:` branch of the main loop). -/
def feAssign (out : PDict) (key : String) (value : List Char) : PDict :=
  let nv := strip value
  if key = "name" then dset out "name" (titleName nv)
  else if key = "dob" || key = "date" || key = "birth" then dset out "dob" nv
  else if key = "adm_no" || key = "admission_no" || key = "id" then dset out "adm_no" (sub2ws nv)
  else if key = "phone" then dset out "phone" nv
  else if key = "website" then dset out "website" nv
  else if key = "email" then dset out "email" nv
  else if key = "social" then dset out "social" nv
  else if key = "address" then dset out "address" (cleanAddress nv)
  else if key = "school" then dset out "school" (upper nv)
  else if key = "card_type" then dset out "card_type" (upper nv)
  else out

/-- The main `while i < N` loop of `extract_fields`, fuelled (the index
strictly increases each iteration). -/
def mainLoop (lines : List (List Char)) : Nat → Nat → PDict → PDict
  | 0, _, out => out
  | fuel + 1, i, out =>
    if i < lines.length then
      let line := lines.getD i []
      let key := isLabel line
      if key ≠ "" then
        let (labelLine, j) :=
          if key = "social" then socialMergeGo lines lines.length line i else (line, i)
        let key2 := isLabel labelLine
        let i2 := j
        let value := afterColonValue labelLine
        if value = [] then
          let (valueLines, k) := gatherGo lines lines.length (i2 + 1) []
          let value2 := strip (joinSep [' '] valueLines)
          let i3 := k - 1
          if value2 ≠ [] then mainLoop lines fuel (i3 + 1) (feAssign out key2 value2)
          else mainLoop lines fuel (i3 + 1) out
        else mainLoop lines fuel (i2 + 1) (feAssign out key2 value)
      else mainLoop lines fuel (i + 1) out
    else out

/-- dob fallback pattern (two numeric date shapes, word-bounded). -/
def feDateRE : RE :=
  .seq .wb (.seq
    (.alt (.seq (rep dig 1 2) (.seq (.chr slashDash)
            (.seq (rep dig 1 2) (.seq (.chr slashDash) (rep dig 2 4)))))
          (.seq (chN dig 4) (.seq (.chr slashDash)
            (.seq (rep dig 1 2) (.seq (.chr slashDash) (rep dig 1 2))))))
    .wb)

/-- adm_no fallback pattern: three groups of 3-4 digits separated by an
optional space or dash, word-bounded. -/
def feAdmRE : RE :=
  .seq .wb (.seq (rep dig 3 4)
    (.seq (.opt (.chr (fun c => isWs c || c = '-')))
      (.seq (rep dig 3 4)
        (.seq (.opt (.chr (fun c => isWs c || c = '-')))
          (.seq (rep dig 3 4) .wb)))))

/-- `StudentIDFieldExtractor.extract_fields`. -/
def extractFields (text : List Char) : PDict :=
  let lines := ((splitlines text).map strip).filter
    (fun ln => ln ≠ [] && !ln.all sepLineCls)
  let firstLabelIdx := lines.findIdx (fun ln => isLabel ln ≠ "")
  let headerCandidates := lines.take firstLabelIdx
  let allCaps := headerCandidates.filter (fun ln => noLower ln && ln.any isUpperAZ)
  let mergedCaps := mergeCaps allCaps
  let out0 : PDict := []
  let out1 :=
    match mergedCaps.find? (fun h => searchB schoolHdrRE h) with
    | some h => if !dhas out0 "school" then dset out0 "school" h else out0
    | none => out0
  let out2 :=
    match mergedCaps.find? (fun h => searchB cardHdrRE h) with
    | some _ => if !dhas out1 "card_type" then dset out1 "card_type" "STUDENT ID CARD".toList else out1
    | none => out1
  let out3 := mainLoop lines (lines.length + 1) 0 out2
  let out4 :=
    if !dhas out3 "dob" then
      match search feDateRE text with
      | some (g, _) => dset out3 "dob" g
      | none => out3
    else out3
  let out5 :=
    if !dhas out4 "adm_no" then
      match search feAdmRE text with
      | some (g, _) => dset out4 "adm_no" (replace1 ' ' [] g)
      | none => out4
    else out4
  let out6 :=
    if !dhas out5 "school" && !mergedCaps.isEmpty then
      dset out5 "school" (mergedCaps.getD 0 [])
    else out5
  match dget out6 "address" with
  | some v => dset out6 "address" (cleanAddress v)
  | none => out6

end FieldExt

namespace DocAI

open Py

/-! Embedding of `docAI.py` (`_norm` and the `put` merge logic of
`BaseDocAIParser.extract`). -/

/-- `_norm`: strip, lower, underscores to spaces, collapse whitespace. -/
def norm (s : List Char) : List Char :=
  sub1ws (replace1 '_' [' '] (lower (strip s)))

/-- A Python dict value under one canonical key: a string or a list. -/
inductive PyVal where
  | str (s : List Char)
  | list (l : List (List Char))
deriving DecidableEq

/-- Python truthiness of `fields.get(canon)`. -/
def truthy : Option PyVal → Bool
  | none => false
  | some (.str s) => !s.isEmpty
  | some (.list l) => !l.isEmpty

/-- The `fields` dict, with the `_extras` sub-dict split out (no canonical
key of the shipped maps is named `_extras`). -/
structure Fields where
  canon : List (String × PyVal)
  extras : List (List Char × List Char)
deriving DecidableEq

/-- One call of the inner `put(k_raw, v)`: normalize the label; drop the
pair when label or value is empty; unmapped labels go to `_extras`;
mapped labels merge per the single/list upgrade rules. -/
def put (m : List (List Char × String)) (st : Fields) (kRaw v : List Char) : Fields :=
  let k := norm kRaw
  if k.isEmpty || v.isEmpty then st
  else
    let val := strip v
    match Dict.aget m k with
    | none => { st with extras := Dict.aset st.extras k val }
    | some canon =>
      let existing := Dict.aget st.canon canon
      if !truthy existing then { st with canon := Dict.aset st.canon canon (.str val) }
      else
        match existing with
        | some (.list l) =>
          if val ∈ l then st
          else { st with canon := Dict.aset st.canon canon (.list (l ++ [val])) }
        | some (.str e) =>
          if val ≠ e then { st with canon := Dict.aset st.canon canon (.list [e, val]) }
          else st
        | none => st

/-- Fold `put` over a document's (typeLabel, mentionText) pairs. -/
def putAll (m : List (List Char × String)) (st : Fields)
    (pairs : List (List Char × List Char)) : Fields :=
  pairs.foldl (fun s kv => put m s kv.1 kv.2) st

/-- Append an element unless already present (first-appearance order). -/
def insertNew (acc : List (List Char)) (x : List Char) : List (List Char) :=
  if x ∈ acc then acc else acc ++ [x]

/-- Distinct values in first-appearance order. -/
def dedupFirst (l : List (List Char)) : List (List Char) := l.foldl insertNew []

/-- The canonical-field value the spec's merge rule prescribes for a list
of distinct values: nothing, the single value, or the list. -/
def mergeState : List (List Char) → Option PyVal
  | [] => none
  | [v] => some (.str v)
  | vs => some (.list vs)

/-- `STUDENT_ID_FIELD_MAP` (source order).  In the source this is a dict
comprehension keyed by `_norm(k)`; `student id` and `student_id` collide
on the same normalized key with the same value `adm_no`, so first-match
lookup agrees with the dict. -/
def studentIdFieldMap : List (List Char × String) :=
  [(norm "student_name".toList, "name"),
   (norm "student id".toList, "adm_no"),
   (norm "student_id".toList, "adm_no"),
   (norm "date_of_birth".toList, "dob"),
   (norm "university_name".toList, "school"),
   (norm "major".toList, "major"),
   (norm "school_year".toList, "school_year"),
   (norm "bank_name".toList, "bank_name"),
   (norm "bank_card_number".toList, "bank_card_number"),
   (norm "bank_card_valid_from".toList, "bank_card_valid_from"),
   (norm "bank_card_expiry".toList, "bank_card_expiry")]

end DocAI

namespace Ocr

open Py

/-! Embedding of `ocr_utils.py` (`_vision_lines_with_gutter`): the
per-line splitting at a known gutter (lines 111-152 of the source). -/

/-- A recognized token: text with horizontal extent. -/
structure Tok where
  t : List Char
  x1 : ℚ
  x2 : ℚ
deriving DecidableEq

/-- Stable insertion by `x1` (Python `list.sort(key=...)` is stable). -/
def insertByX (w : Tok) : List Tok → List Tok
  | [] => [w]
  | v :: vs => if w.x1 ≤ v.x1 then w :: v :: vs else v :: insertByX w vs

/-- Sort a line's tokens by `x1`. -/
def sortByX (l : List Tok) : List Tok := l.foldr insertByX []

/-- `left = [w for w in ln if w["x2"] <= gutter]` -/
def leftToks (g : ℚ) (ln : List Tok) : List Tok := ln.filter (fun w => w.x2 ≤ g)

/-- `right = [w for w in ln if w["x1"] > gutter]` -/
def rightToks (g : ℚ) (ln : List Tok) : List Tok := ln.filter (fun w => g < w.x1)

/-- `is_header`: card phrases, or at least 80% of the letters uppercase
(the 0.8 float comparison is modelled exactly on naturals). -/
def isHeader (lineText : List Char) : Bool :=
  let s := strip lineText
  if containsSub "IDENTIFICATION".toList (upper s) ||
     containsSub "ID CARD".toList (upper s) then true
  else
    let letters := s.filter isAlphaAZ
    !letters.isEmpty && 5 * (letters.filter isUpperAZ).length ≥ 4 * letters.length

/-- The non-header processing of one grouped line given the gutter and the
carried label: returns the emitted lines and the new carried label. -/
def emitLine (g : ℚ) (carry : List Char) (ln0 : List Tok) : List (List Char) × List Char :=
  let ln := sortByX ln0
  let raw := strip (joinSep [' '] (ln.map Tok.t))
  let left := leftToks g ln
  let right := rightToks g ln
  let leftText0 := strip (joinSep [' '] (left.map Tok.t))
  let rightText0 := strip (joinSep [' '] (right.map Tok.t))
  let leftText := if leftText0 = [':'] then [] else leftText0
  let rightText := if rightText0 = [':'] then [] else rightText0
  if leftText ≠ [] && rightText ≠ [] then
    if containsSub "IDENTIFICATION".toList (upper rightText) ||
       containsSub "ID CARD".toList (upper rightText) then
      ([leftText ++ ' ' :: rightText], [])
    else ([leftText ++ " : ".toList ++ rightText], [])
  else if leftText ≠ [] && rightText = [] then ([leftText], leftText)
  else if rightText ≠ [] && leftText = [] then
    if carry ≠ [] then ([carry ++ " : ".toList ++ rightText], [])
    else ([rightText], carry)
  else if raw ≠ [] then ([raw], carry)
  else ([], carry)

end Ocr

/-! ## Helper lemmas -/

namespace Helpers

/-- Two pointwise-disjoint filters together keep at most all elements. -/
theorem filter_two_disjoint {α : Type} (p q : α → Bool) :
    ∀ (l : List α), (∀ x ∈ l, ¬(p x = true ∧ q x = true)) →
    (l.filter p).length + (l.filter q).length ≤ l.length := by
  intro l
  induction l with
  | nil => intro _; simp
  | cons x xs ih =>
    intro h
    have hx := h x (List.mem_cons_self x xs)
    have hxs : ∀ y ∈ xs, ¬(p y = true ∧ q y = true) := by
      intro y hy; exact h y (List.mem_cons_of_mem x hy)
    have ihx := ih hxs
    by_cases hp : p x = true
    · have hq : q x = false := by
        cases hq2 : q x with
        | false => rfl
        | true => exact absurd ⟨hp, hq2⟩ hx
      simp [List.filter_cons, hp, hq]
      omega
    · have hp2 : p x = false := by simpa using hp
      by_cases hq : q x = true
      · simp [List.filter_cons, hp2, hq]
        omega
      · have hq2 : q x = false := by simpa using hq
        simp [List.filter_cons, hp2, hq2]
        omega

end Helpers

/-! ## C1: label table order -/

/-- C1: counterexample.  The claim states that a line whose normalized
prefix is "id card" classifies as `card_type`, not `adm_no`; but
`StudentIDFieldExtractor._is_label("ID CARD")` returns `adm_no`, because
the `adm_no` pattern (whose last alternative is the bare `id`) is tried
before the `card_type` pattern in the table. -/
theorem C1_counterexample :
    FieldExt.isLabel "ID CARD".toList = "adm_no" ∧ ("adm_no" : String) ≠ "card_type" := by
  constructor
  · decide
  · decide

/-- C1 (amended): the classifier tries the fixed table top-to-bottom with
first match winning, but `adm_no` (containing the bare `id` pattern)
precedes `card_type`: "student id card" classifies as `card_type` while
"id card" classifies as `adm_no` in `StudentIDFieldExtractor._is_label`.
In `parse_id_fields`, whose label regexes additionally require a colon,
"ID CARD : X" classifies as `card_type` (the `adm_no` match fails at the
colon) and a bare "ID CARD" line matches no label at all. -/
theorem C1_amended :
    FieldExt.isLabel "Student ID Card".toList = "card_type" ∧
    FieldExt.isLabel "ID CARD".toList = "adm_no" ∧
    IdParser.classify "ID CARD : X".toList = some ("card_type", "X".toList) ∧
    IdParser.classify "ID CARD".toList = none ∧
    IdParser.classify "Student ID: 123".toList = some ("adm_no", "123".toList) := by
  refine ⟨by decide, by decide, by decide, by decide, by decide⟩

/-! ## C4: label alone on a line -/

/-- C4: counterexample.  On the exact input lines "NAME" / "John Smith",
`parse_id_fields` extracts nothing at all (its label regexes require a
colon after the label), so field assembly does not map `name` to
"John Smith" there. -/
theorem C4_counterexample :
    IdParser.parseIdFields "NAME\nJohn Smith".toList = [] := by decide

/-- C4 (amended): `StudentIDFieldExtractor.extract_fields` implements the
claimed behaviour: on the two lines "NAME" / "John Smith" the label alone
on its line takes the following non-label line as its value, giving
`{name: "John Smith"}`; `parse_id_fields`, however, requires a colon
after a label and returns nothing on this input. -/
theorem C4_amended :
    FieldExt.extractFields "NAME\nJohn Smith".toList = [("name", "John Smith".toList)] := by
  decide

/-! ## C3: gutter splitting -/

/-- C3: counterexample.  A token straddling the gutter
(`x1 ≤ gutter < x2`) is counted on neither side and its text is dropped
from the emitted line: with gutter 50, the line
[Phone(0,40), MID(45,60), 1234(62,90)] (not a header) emits
"Phone : 1234" — only 2 of its 3 tokens are counted and "MID" does not
appear in the output. -/
theorem C3_counterexample :
    Ocr.emitLine 50 []
      [⟨"Phone".toList, 0, 40⟩, ⟨"MID".toList, 45, 60⟩, ⟨"1234".toList, 62, 90⟩] =
      (["Phone : 1234".toList], []) ∧
    Ocr.isHeader (Py.joinSep [' ']
      (([⟨"Phone".toList, 0, 40⟩, ⟨"MID".toList, 45, 60⟩,
        ⟨"1234".toList, 62, 90⟩] : List Ocr.Tok).map Ocr.Tok.t)) = false ∧
    (Ocr.leftToks 50 [⟨"Phone".toList, 0, 40⟩, ⟨"MID".toList, 45, 60⟩,
        ⟨"1234".toList, 62, 90⟩]).length +
      (Ocr.rightToks 50 [⟨"Phone".toList, 0, 40⟩, ⟨"MID".toList, 45, 60⟩,
        ⟨"1234".toList, 62, 90⟩]).length = 2 ∧
    Py.containsSub "MID".toList "Phone : 1234".toList = false := by
  refine ⟨by decide, by decide, by decide, by decide⟩

/-- C3 (amended): the two sides are disjoint — a token goes left only
when `x2 ≤ gutter` and right only when `gutter < x1`, never both — so
`|left| + |right| ≤ |line|`; but a token straddling the gutter is counted
on neither side and its text is dropped from the emitted line. -/
theorem C3_amended (g : ℚ) (ln : List Ocr.Tok) (h : ∀ w ∈ ln, w.x1 ≤ w.x2) :
    (Ocr.leftToks g ln).length + (Ocr.rightToks g ln).length ≤ ln.length ∧
    ∀ w ∈ ln, ¬(w.x2 ≤ g ∧ g < w.x1) := by
  constructor
  · apply Helpers.filter_two_disjoint
    intro w hw hcontra
    have h1 := h w hw
    have h2 : w.x2 ≤ g := of_decide_eq_true hcontra.1
    have h3 : g < w.x1 := of_decide_eq_true hcontra.2
    exact absurd (lt_of_le_of_lt (le_trans h1 h2) h3) (lt_irrefl _)
  · intro w hw hcontra
    have h1 := h w hw
    exact absurd (lt_of_le_of_lt (le_trans h1 hcontra.1) hcontra.2) (lt_irrefl _)

/-- C3 witness: the amended theorem applied to the concrete straddling
line. -/
theorem C3_witness :
    (∀ w ∈ ([⟨"Phone".toList, 0, 40⟩, ⟨"MID".toList, 45, 60⟩,
        ⟨"1234".toList, 62, 90⟩] : List Ocr.Tok), w.x1 ≤ w.x2) ∧
    ((Ocr.leftToks 50 [⟨"Phone".toList, 0, 40⟩, ⟨"MID".toList, 45, 60⟩,
        ⟨"1234".toList, 62, 90⟩]).length +
      (Ocr.rightToks 50 [⟨"Phone".toList, 0, 40⟩, ⟨"MID".toList, 45, 60⟩,
        ⟨"1234".toList, 62, 90⟩]).length ≤ 3 ∧
     ∀ w ∈ ([⟨"Phone".toList, 0, 40⟩, ⟨"MID".toList, 45, 60⟩,
        ⟨"1234".toList, 62, 90⟩] : List Ocr.Tok), ¬(w.x2 ≤ 50 ∧ (50:ℚ) < w.x1)) :=
  ⟨by decide, C3_amended 50 _ (by decide)⟩

/-! ## C5, C6, C7: counterexamples -/

/-- C5: counterexample.  A dob value taken from the same line as the
label is stored without any date-shape check: `parse_id_fields("DOB :
hello")` returns `dob = "hello"`, which is not date-shaped. -/
theorem C5_counterexample :
    IdParser.dget (IdParser.parseIdFields "DOB : hello".toList) "dob" =
      some "hello".toList ∧
    IdParser.isDate "hello".toList = false := by
  refine ⟨by decide, by decide⟩

/-- C6: counterexample.  The fallback identifier regex requires seven
characters of digits/space/dash/slash/dot after a leading digit, not
seven digits: the text "1 2 3 4" contains only four digits in total, yet
fallback mining sets `adm_no = "1 2 3 4"`. -/
theorem C6_counterexample :
    IdParser.dget (IdParser.parseIdFields "1 2 3 4".toList) "adm_no" =
      some "1 2 3 4".toList ∧
    (("1 2 3 4".toList.filter Py.isDigit09).length < 7) := by
  refine ⟨by decide, by decide⟩

/-- C7: counterexample.  `tidy_text` is not idempotent: for
"a" / "::" / ":" the first pass yields "a" / " : ", and the second pass
merges the now-bare colon line into the previous line, yielding "a : ". -/
theorem C7_counterexample :
    IdParser.tidyText (IdParser.tidyText "a\n::\n:".toList) ≠
      IdParser.tidyText "a\n::\n:".toList := by decide

/-! ## Dictionary lemmas -/

namespace Dict

theorem all_keys_ne {α β : Type} [DecidableEq α] {d : List (α × β)} {k : α}
    (h : d.any (fun kv => kv.1 = k) = false) : ∀ kv ∈ d, kv.1 ≠ k := by
  intro kv hkv he
  have : d.any (fun kv => kv.1 = k) = true := List.any_eq_true.mpr ⟨kv, hkv, by simp [he]⟩
  simp [h] at this

theorem aget_cons_hit {α β : Type} [DecidableEq α] {x : α × β} {xs : List (α × β)} {k : α}
    (h : x.1 = k) : aget (x :: xs) k = some x.2 := by
  unfold aget
  rw [List.find?_cons_of_pos _ (by simp [h])]
  rfl

theorem aget_cons_miss {α β : Type} [DecidableEq α] {x : α × β} {xs : List (α × β)} {k : α}
    (h : x.1 ≠ k) : aget (x :: xs) k = aget xs k := by
  unfold aget
  rw [List.find?_cons_of_neg _ (by simp [h])]

theorem aget_nil {α β : Type} [DecidableEq α] (k : α) : aget ([] : List (α × β)) k = none := rfl

theorem aget_append_hit {α β : Type} [DecidableEq α] (d : List (α × β)) (k : α) (v : β)
    (hall : ∀ kv ∈ d, kv.1 ≠ k) : aget (d ++ [(k, v)]) k = some v := by
  induction d with
  | nil => exact aget_cons_hit rfl
  | cons x xs ih =>
    rw [List.cons_append, aget_cons_miss (hall x (List.mem_cons_self x xs))]
    exact ih (fun kv hkv => hall kv (List.mem_cons_of_mem x hkv))

theorem aget_map_replace {α β : Type} [DecidableEq α] (d : List (α × β)) (k : α) (v : β)
    (hd : d.any (fun kv => kv.1 = k) = true) :
    aget (d.map (fun kv => if kv.1 = k then (k, v) else kv)) k = some v := by
  induction d with
  | nil => simp at hd
  | cons x xs ih =>
    by_cases hx : x.1 = k
    · rw [List.map_cons, if_pos hx]
      exact aget_cons_hit rfl
    · have h2 : xs.any (fun kv => kv.1 = k) = true := by
        simp only [List.any_cons, Bool.or_eq_true, decide_eq_true_eq] at hd
        rcases hd with h1 | h1
        · exact absurd h1 hx
        · exact h1
      rw [List.map_cons, if_neg hx, aget_cons_miss hx]
      exact ih h2

theorem aget_aset_self {α β : Type} [DecidableEq α] (d : List (α × β)) (k : α) (v : β) :
    aget (aset d k v) k = some v := by
  unfold aset
  by_cases h : d.any (fun kv => kv.1 = k) = true
  · rw [if_pos h]; exact aget_map_replace d k v h
  · rw [if_neg h]
    exact aget_append_hit d k v (all_keys_ne (Bool.eq_false_iff.mpr h))

theorem aget_map_replace_ne {α β : Type} [DecidableEq α] (d : List (α × β)) (k k2 : α) (v : β)
    (hk : k2 ≠ k) :
    aget (d.map (fun kv => if kv.1 = k then (k, v) else kv)) k2 = aget d k2 := by
  induction d with
  | nil => rfl
  | cons x xs ih =>
    by_cases hx : x.1 = k
    · rw [List.map_cons, if_pos hx, aget_cons_miss (fun he => hk (Eq.symm he))]
      rw [aget_cons_miss (by rw [hx]; exact fun he => hk (Eq.symm he))]
      exact ih
    · rw [List.map_cons, if_neg hx]
      by_cases hx2 : x.1 = k2
      · rw [aget_cons_hit hx2, aget_cons_hit hx2]
      · rw [aget_cons_miss hx2, aget_cons_miss hx2]
        exact ih

theorem aget_append_one_ne {α β : Type} [DecidableEq α] (d : List (α × β)) (k k2 : α) (v : β)
    (hk : k2 ≠ k) : aget (d ++ [(k, v)]) k2 = aget d k2 := by
  induction d with
  | nil =>
    rw [List.nil_append, aget_cons_miss (fun he => hk (Eq.symm he))]
  | cons x xs ih =>
    by_cases hx2 : x.1 = k2
    · rw [List.cons_append, aget_cons_hit hx2, aget_cons_hit hx2]
    · rw [List.cons_append, aget_cons_miss hx2, aget_cons_miss hx2]
      exact ih

theorem aget_aset_ne {α β : Type} [DecidableEq α] (d : List (α × β)) (k k2 : α) (v : β)
    (hk : k2 ≠ k) : aget (aset d k v) k2 = aget d k2 := by
  unfold aset
  by_cases h : d.any (fun kv => kv.1 = k) = true
  · rw [if_pos h]; exact aget_map_replace_ne d k k2 v hk
  · rw [if_neg h]; exact aget_append_one_ne d k k2 v hk

theorem aset_keys_ne_map {α β : Type} [DecidableEq α] (d : List (α × β)) (k : α) (v : β)
    (hall : ∀ kv ∈ d, kv.1 ≠ k) :
    d.map (fun kv => if kv.1 = k then (k, v) else kv) = d := by
  induction d with
  | nil => rfl
  | cons x xs ih =>
    have hx := hall x (List.mem_cons_self x xs)
    simp only [List.map_cons, if_neg hx]
    rw [ih (fun kv hkv => hall kv (List.mem_cons_of_mem x hkv))]

theorem aset_aset {α β : Type} [DecidableEq α] (d : List (α × β)) (k : α) (v w : β) :
    aset (aset d k v) k w = aset d k w := by
  unfold aset
  by_cases h : d.any (fun kv => kv.1 = k) = true
  · rw [if_pos h]
    have hany : (d.map (fun kv => if kv.1 = k then (k, v) else kv)).any
        (fun kv => kv.1 = k) = true := by
      rcases List.any_eq_true.mp h with ⟨kv, hkv, he⟩
      simp only [decide_eq_true_eq] at he
      refine List.any_eq_true.mpr
        ⟨if kv.1 = k then (k, v) else kv, List.mem_map_of_mem _ hkv, by simp [he]⟩
    rw [if_pos hany, if_pos h, List.map_map]
    congr 1
    funext kv
    by_cases hkv : kv.1 = k <;> simp [hkv, Function.comp]
  · rw [if_neg h]
    have hall := all_keys_ne (Bool.eq_false_iff.mpr h)
    have hany : (d ++ [(k, v)]).any (fun kv => kv.1 = k) = true :=
      List.any_eq_true.mpr ⟨(k, v), by simp, by simp⟩
    rw [if_pos hany, if_neg h, List.map_append]
    rw [aset_keys_ne_map d k w hall]
    simp

theorem ahas_iff_aget {α β : Type} [DecidableEq α] (d : List (α × β)) (k : α) :
    ahas d k = (aget d k).isSome := by
  unfold ahas
  induction d with
  | nil => rfl
  | cons x xs ih =>
    by_cases hx : x.1 = k
    · rw [aget_cons_hit hx]
      simp [List.any_cons, hx]
    · rw [aget_cons_miss hx]
      simpa [List.any_cons, hx] using ih

end Dict

/-! ## put characterization lemmas -/

namespace DocAI

theorem put_guard {m : List (List Char × String)} {st : Fields} {kRaw v : List Char}
    (hg : ((norm kRaw).isEmpty || v.isEmpty) = true) : put m st kRaw v = st := by
  unfold put
  simp only [hg, if_true]

theorem put_miss {m : List (List Char × String)} {st : Fields} {kRaw v : List Char}
    (hg : ((norm kRaw).isEmpty || v.isEmpty) = false)
    (hm : Dict.aget m (norm kRaw) = none) :
    put m st kRaw v = { st with extras := Dict.aset st.extras (norm kRaw) (Py.strip v) } := by
  unfold put
  simp only [hg, Bool.false_eq_true, if_false, hm]

theorem put_unset {m : List (List Char × String)} {st : Fields} {kRaw v : List Char}
    {canon : String}
    (hg : ((norm kRaw).isEmpty || v.isEmpty) = false)
    (hm : Dict.aget m (norm kRaw) = some canon)
    (ht : truthy (Dict.aget st.canon canon) = false) :
    put m st kRaw v = { st with canon := Dict.aset st.canon canon (.str (Py.strip v)) } := by
  unfold put
  simp only [hg, Bool.false_eq_true, if_false, hm, ht, Bool.not_false, if_true]

theorem put_str {m : List (List Char × String)} {st : Fields} {kRaw v : List Char}
    {canon : String} {e : List Char}
    (hg : ((norm kRaw).isEmpty || v.isEmpty) = false)
    (hm : Dict.aget m (norm kRaw) = some canon)
    (he : Dict.aget st.canon canon = some (.str e))
    (hne : e.isEmpty = false) :
    put m st kRaw v =
      (if Py.strip v = e then st
       else { st with canon := Dict.aset st.canon canon (.list [e, Py.strip v]) }) := by
  unfold put
  simp only [hg, Bool.false_eq_true, if_false, hm, he, truthy, hne, Bool.not_false,
    Bool.not_true, Bool.false_eq_true, if_false]
  by_cases hv : Py.strip v = e
  · simp [hv]
  · simp [hv]

theorem put_list {m : List (List Char × String)} {st : Fields} {kRaw v : List Char}
    {canon : String} {l : List (List Char)}
    (hg : ((norm kRaw).isEmpty || v.isEmpty) = false)
    (hm : Dict.aget m (norm kRaw) = some canon)
    (he : Dict.aget st.canon canon = some (.list l))
    (hne : l.isEmpty = false) :
    put m st kRaw v =
      (if Py.strip v ∈ l then st
       else { st with canon := Dict.aset st.canon canon (.list (l ++ [Py.strip v])) }) := by
  unfold put
  simp only [hg, Bool.false_eq_true, if_false, hm, he, truthy, hne, Bool.not_false,
    Bool.not_true, Bool.false_eq_true, if_false]

end DocAI

/-! ## C8: merge idempotence -/

/-- C8: merging the same (label, value) pair twice into the field state
produces exactly the state obtained by merging it once, for every state,
canonical table and pair. -/
theorem C8_put_idempotent (m : List (List Char × String)) (st : DocAI.Fields)
    (kRaw v : List Char) :
    DocAI.put m (DocAI.put m st kRaw v) kRaw v = DocAI.put m st kRaw v := by
  by_cases hg : ((DocAI.norm kRaw).isEmpty || v.isEmpty) = true
  · rw [DocAI.put_guard hg, DocAI.put_guard hg]
  · have hg2 : ((DocAI.norm kRaw).isEmpty || v.isEmpty) = false := Bool.eq_false_iff.mpr hg
    cases hm : Dict.aget m (DocAI.norm kRaw) with
    | none =>
      rw [DocAI.put_miss hg2 hm, DocAI.put_miss hg2 hm]
      show DocAI.Fields.mk _ _ = DocAI.Fields.mk _ _
      congr 1
      exact Dict.aset_aset _ _ _ _
    | some canon =>
      by_cases ht : DocAI.truthy (Dict.aget st.canon canon) = true
      · cases he : Dict.aget st.canon canon with
        | none => rw [he] at ht; simp [DocAI.truthy] at ht
        | some pv =>
          cases pv with
          | str e =>
            have hne : e.isEmpty = false := by
              rw [he] at ht; simpa [DocAI.truthy] using ht
            rw [DocAI.put_str hg2 hm he hne]
            by_cases hv : Py.strip v = e
            · rw [if_pos hv, DocAI.put_str hg2 hm he hne, if_pos hv]
            · rw [if_neg hv]
              have h2 : Dict.aget
                  (DocAI.Fields.mk (Dict.aset st.canon canon
                    (DocAI.PyVal.list [e, Py.strip v])) st.extras).canon canon =
                  some (DocAI.PyVal.list [e, Py.strip v]) := Dict.aget_aset_self _ _ _
              rw [DocAI.put_list hg2 hm h2 rfl]
              rw [if_pos (by simp : Py.strip v ∈ [e, Py.strip v])]
          | list l =>
            have hne : l.isEmpty = false := by
              rw [he] at ht; simpa [DocAI.truthy] using ht
            rw [DocAI.put_list hg2 hm he hne]
            by_cases hv : Py.strip v ∈ l
            · rw [if_pos hv, DocAI.put_list hg2 hm he hne, if_pos hv]
            · rw [if_neg hv]
              have h2 : Dict.aget
                  (DocAI.Fields.mk (Dict.aset st.canon canon
                    (DocAI.PyVal.list (l ++ [Py.strip v]))) st.extras).canon canon =
                  some (DocAI.PyVal.list (l ++ [Py.strip v])) := Dict.aget_aset_self _ _ _
              have hne2 : (l ++ [Py.strip v]).isEmpty = false := by
                cases l <;> rfl
              rw [DocAI.put_list hg2 hm h2 hne2]
              rw [if_pos (by simp : Py.strip v ∈ l ++ [Py.strip v])]
      · have ht2 : DocAI.truthy (Dict.aget st.canon canon) = false := Bool.eq_false_iff.mpr ht
        rw [DocAI.put_unset hg2 hm ht2]
        have h2 : Dict.aget
            (DocAI.Fields.mk (Dict.aset st.canon canon
              (DocAI.PyVal.str (Py.strip v))) st.extras).canon canon =
            some (DocAI.PyVal.str (Py.strip v)) := Dict.aget_aset_self _ _ _
        by_cases hv : (Py.strip v).isEmpty = true
        · have ht3 : DocAI.truthy (Dict.aget
              (DocAI.Fields.mk (Dict.aset st.canon canon
                (DocAI.PyVal.str (Py.strip v))) st.extras).canon canon) = false := by
            rw [h2]; simp [DocAI.truthy, hv]
          rw [DocAI.put_unset hg2 hm ht3]
          show DocAI.Fields.mk _ _ = DocAI.Fields.mk _ _
          congr 1
          exact Dict.aset_aset _ _ _ _
        · have hv2 : (Py.strip v).isEmpty = false := Bool.eq_false_iff.mpr hv
          rw [DocAI.put_str hg2 hm h2 hv2]
          rw [if_pos rfl]

/-! ## C9: unmatched bucket -/

/-- C9: a pair whose normalized label has no canonical mapping (and whose
normalized label and raw value are nonempty) is stored in the unmatched
bucket under the normalized label with the trimmed value, and every
canonical field is left unchanged. -/
theorem C9_unmatched (m : List (List Char × String)) (st : DocAI.Fields)
    (kRaw v : List Char)
    (h1 : Dict.aget m (DocAI.norm kRaw) = none)
    (h2 : (DocAI.norm kRaw).isEmpty = false)
    (h3 : v.isEmpty = false) :
    (DocAI.put m st kRaw v).canon = st.canon ∧
    Dict.aget (DocAI.put m st kRaw v).extras (DocAI.norm kRaw) = some (Py.strip v) := by
  rw [DocAI.put_miss (by rw [h2, h3]; rfl) h1]
  exact ⟨rfl, Dict.aget_aset_self _ _ _⟩

/-- C9 witness: a label unknown to the student-ID map lands in the
unmatched bucket and leaves the canonical fields untouched. -/
theorem C9_witness :
    (Dict.aget DocAI.studentIdFieldMap (DocAI.norm "Custom Label".toList) = none ∧
     (DocAI.norm "Custom Label".toList).isEmpty = false ∧
     (" X ".toList).isEmpty = false) ∧
    ((DocAI.put DocAI.studentIdFieldMap
        ⟨[("name", DocAI.PyVal.str "J".toList)], []⟩ "Custom Label".toList " X ".toList).canon =
      [("name", DocAI.PyVal.str "J".toList)] ∧
     Dict.aget (DocAI.put DocAI.studentIdFieldMap
        ⟨[("name", DocAI.PyVal.str "J".toList)], []⟩ "Custom Label".toList " X ".toList).extras
        (DocAI.norm "Custom Label".toList) = some (Py.strip " X ".toList)) :=
  ⟨⟨by decide, by decide, by decide⟩,
   C9_unmatched DocAI.studentIdFieldMap ⟨[("name", DocAI.PyVal.str "J".toList)], []⟩
     "Custom Label".toList " X ".toList (by decide) (by decide) (by decide)⟩

/-! ## C2: merge of repeated values on one canonical key -/

namespace Helpers

theorem strip_nonempty_source {v : List Char} (h : (Py.strip v).isEmpty = false) :
    v.isEmpty = false := by
  cases v with
  | nil => simp [Py.strip, Py.stripP, Py.lstripP, Py.rstripP] at h
  | cons c cs => rfl

/-- Invariant of the `put` fold on one canonical key: if the current state
holds exactly the merge of the distinct values `ds` seen so far, the
state after further pairs holds the merge of the updated distinct list. -/
theorem putAll_merge_inv (m : List (List Char × String)) (canon : String) :
    ∀ (pairs : List (List Char × List Char)) (st : DocAI.Fields) (ds : List (List Char)),
    (∀ p ∈ pairs, Dict.aget m (DocAI.norm p.1) = some canon) →
    (∀ p ∈ pairs, (DocAI.norm p.1).isEmpty = false) →
    (∀ p ∈ pairs, (Py.strip p.2).isEmpty = false) →
    (∀ e ∈ ds, e.isEmpty = false) →
    Dict.aget st.canon canon = DocAI.mergeState ds →
    Dict.aget (DocAI.putAll m st pairs).canon canon =
      DocAI.mergeState (pairs.foldl (fun acc p => DocAI.insertNew acc (Py.strip p.2)) ds) := by
  intro pairs
  induction pairs with
  | nil => intro st ds _ _ _ _ hst; simpa [DocAI.putAll] using hst
  | cons p rest ih =>
    intro st ds hmap hk hval hds hst
    have hmp := hmap p (List.mem_cons_self p rest)
    have hkp := hk p (List.mem_cons_self p rest)
    have hvp := hval p (List.mem_cons_self p rest)
    have hg : ((DocAI.norm p.1).isEmpty || p.2.isEmpty) = false := by
      rw [hkp, strip_nonempty_source hvp]; rfl
    have hstep : DocAI.putAll m st (p :: rest) =
        DocAI.putAll m (DocAI.put m st p.1 p.2) rest := rfl
    rw [hstep]
    have hrest1 := fun q hq => hmap q (List.mem_cons_of_mem p hq)
    have hrest2 := fun q hq => hk q (List.mem_cons_of_mem p hq)
    have hrest3 := fun q hq => hval q (List.mem_cons_of_mem p hq)
    have hfold : (p :: rest).foldl (fun acc q => DocAI.insertNew acc (Py.strip q.2)) ds =
        rest.foldl (fun acc q => DocAI.insertNew acc (Py.strip q.2))
          (DocAI.insertNew ds (Py.strip p.2)) := rfl
    rw [hfold]
    apply ih (DocAI.put m st p.1 p.2) (DocAI.insertNew ds (Py.strip p.2))
      hrest1 hrest2 hrest3
    · intro e he
      unfold DocAI.insertNew at he
      by_cases hmem : Py.strip p.2 ∈ ds
      · rw [if_pos hmem] at he; exact hds e he
      · rw [if_neg hmem] at he
        rcases List.mem_append.mp he with h1 | h1
        · exact hds e h1
        · rw [List.mem_singleton.mp h1]; exact hvp
    · cases ds with
      | nil =>
        have ht : DocAI.truthy (Dict.aget st.canon canon) = false := by
          rw [hst]; rfl
        rw [DocAI.put_unset hg hmp ht]
        have := Dict.aget_aset_self st.canon canon (DocAI.PyVal.str (Py.strip p.2))
        simpa [DocAI.insertNew, DocAI.mergeState] using this
      | cons e1 ds1 =>
        cases ds1 with
        | nil =>
          have he1 : e1.isEmpty = false := hds e1 (List.mem_cons_self e1 [])
          have hstv : Dict.aget st.canon canon = some (DocAI.PyVal.str e1) := hst
          rw [DocAI.put_str hg hmp hstv he1]
          by_cases hv : Py.strip p.2 = e1
          · rw [if_pos hv, hstv]
            have : DocAI.insertNew [e1] (Py.strip p.2) = [e1] := by
              unfold DocAI.insertNew
              rw [if_pos (by rw [hv]; exact List.mem_singleton.mpr rfl)]
            rw [this]
            rfl
          · rw [if_neg hv]
            have hset := Dict.aget_aset_self st.canon canon
              (DocAI.PyVal.list [e1, Py.strip p.2])
            have : DocAI.insertNew [e1] (Py.strip p.2) = [e1, Py.strip p.2] := by
              unfold DocAI.insertNew
              rw [if_neg (by simpa using hv)]
              rfl
            rw [this]
            exact hset
        | cons e2 ds2 =>
          have hstv : Dict.aget st.canon canon =
              some (DocAI.PyVal.list (e1 :: e2 :: ds2)) := hst
          rw [DocAI.put_list hg hmp hstv rfl]
          by_cases hv : Py.strip p.2 ∈ e1 :: e2 :: ds2
          · rw [if_pos hv, hstv]
            have : DocAI.insertNew (e1 :: e2 :: ds2) (Py.strip p.2) = e1 :: e2 :: ds2 := by
              unfold DocAI.insertNew; rw [if_pos hv]
            rw [this]
            rfl
          · rw [if_neg hv]
            have hset := Dict.aget_aset_self st.canon canon
              (DocAI.PyVal.list ((e1 :: e2 :: ds2) ++ [Py.strip p.2]))
            have : DocAI.insertNew (e1 :: e2 :: ds2) (Py.strip p.2) =
                (e1 :: e2 :: ds2) ++ [Py.strip p.2] := by
              unfold DocAI.insertNew; rw [if_neg hv]
            rw [this]
            exact hset

end Helpers

/-- C2: folding a sequence of (label, value) pairs that all map to one
canonical key over an initially unset state yields exactly the merge the
spec prescribes: nothing for no pairs, the single trimmed value when only
one distinct trimmed value occurred, and otherwise the ordered list of
the distinct trimmed values in first-appearance order with duplicates
suppressed. -/
theorem C2_merge (m : List (List Char × String)) (canon : String) (st : DocAI.Fields)
    (pairs : List (List Char × List Char))
    (hmap : ∀ p ∈ pairs, Dict.aget m (DocAI.norm p.1) = some canon)
    (hk : ∀ p ∈ pairs, (DocAI.norm p.1).isEmpty = false)
    (hval : ∀ p ∈ pairs, (Py.strip p.2).isEmpty = false)
    (hinit : Dict.aget st.canon canon = none) :
    Dict.aget (DocAI.putAll m st pairs).canon canon =
      DocAI.mergeState (DocAI.dedupFirst (pairs.map (fun p => Py.strip p.2))) := by
  have h := Helpers.putAll_merge_inv m canon pairs st [] hmap hk hval
    (by intro e he; simp at he) (by simpa [DocAI.mergeState] using hinit)
  rw [h]
  congr 1
  unfold DocAI.dedupFirst
  rw [List.foldl_map]

/-- C2 witness: two `bank_name` entities "Bank A" then "Bank B" through
the student-ID table produce the two-element list, in order. -/
theorem C2_witness :
    ((∀ p ∈ [("bank_name".toList, "Bank A".toList), ("bank_name".toList, "Bank B".toList)],
        Dict.aget DocAI.studentIdFieldMap (DocAI.norm p.1) = some "bank_name") ∧
     (∀ p ∈ [("bank_name".toList, "Bank A".toList), ("bank_name".toList, "Bank B".toList)],
        (DocAI.norm p.1).isEmpty = false) ∧
     (∀ p ∈ [("bank_name".toList, "Bank A".toList), ("bank_name".toList, "Bank B".toList)],
        (Py.strip p.2).isEmpty = false)) ∧
    Dict.aget (DocAI.putAll DocAI.studentIdFieldMap ⟨[], []⟩
        [("bank_name".toList, "Bank A".toList), ("bank_name".toList, "Bank B".toList)]).canon
        "bank_name" =
      DocAI.mergeState (DocAI.dedupFirst
        ([("bank_name".toList, "Bank A".toList),
          ("bank_name".toList, "Bank B".toList)].map (fun p => Py.strip p.2))) ∧
    DocAI.mergeState (DocAI.dedupFirst
        ([("bank_name".toList, "Bank A".toList),
          ("bank_name".toList, "Bank B".toList)].map (fun p => Py.strip p.2))) =
      some (DocAI.PyVal.list ["Bank A".toList, "Bank B".toList]) :=
  ⟨⟨by decide, by decide, by decide⟩,
   C2_merge DocAI.studentIdFieldMap "bank_name" ⟨[], []⟩
     [("bank_name".toList, "Bank A".toList), ("bank_name".toList, "Bank B".toList)]
     (by decide) (by decide) (by decide) (by decide),
   by decide⟩
/-! ## String lemmas: splitlines round trip, strip idempotence -/

namespace Helpers

open Py

theorem splitlinesAux_cons_nonl {c : Char} (h : isNl c = false) (cs acc : List Char) :
    splitlinesAux (c :: cs) acc = splitlinesAux cs (c :: acc) := by
  have hc : ¬(c = '\x0d') := by
    intro he; subst he; simp [isNl] at h
  cases cs with
  | nil =>
    show (if isNl c then [acc.reverse] else [(c :: acc).reverse]) = _
    rw [if_neg (by simp [h])]
    rfl
  | cons c2 rest =>
    show (if c = '\x0d' then _ else if isNl c then _ else splitlinesAux (c2 :: rest) (c :: acc)) = _
    rw [if_neg hc, if_neg (by simp [h])]

theorem splitlinesAux_cons_nl (cs acc : List Char) :
    splitlinesAux ('\n' :: cs) acc = acc.reverse :: splitlinesAux cs [] := by
  cases cs with
  | nil =>
    show (if isNl '\n' then [acc.reverse] else _) = _
    rw [if_pos (by decide)]
    rfl
  | cons c2 rest =>
    show (if '\n' = '\x0d' then _ else if isNl '\n' then _
      else splitlinesAux (c2 :: rest) ('\n' :: acc)) = _
    rw [if_neg (by decide), if_pos (by decide)]

theorem splitlinesAux_nlfree_append {l : List Char} (h : ∀ c ∈ l, isNl c = false) :
    ∀ (cs acc : List Char), splitlinesAux (l ++ cs) acc = splitlinesAux cs (l.reverse ++ acc) := by
  induction l with
  | nil => intro cs acc; simp
  | cons c l2 ih =>
    intro cs acc
    rw [List.cons_append, splitlinesAux_cons_nonl (h c (List.mem_cons_self c l2))]
    rw [ih (fun d hd => h d (List.mem_cons_of_mem c hd)) cs (c :: acc)]
    simp

theorem splitlines_joinSep (ls : List (List Char))
    (hne : ∀ l ∈ ls, l ≠ [])
    (hnl : ∀ l ∈ ls, ∀ c ∈ l, isNl c = false) :
    splitlines (joinSep ['\n'] ls) = ls := by
  induction ls with
  | nil => rfl
  | cons x ls2 ih =>
    cases ls2 with
    | nil =>
      show splitlinesAux (joinSep ['\n'] [x]) [] = [x]
      have hx : joinSep ['\n'] [x] = x := rfl
      rw [hx]
      have h2 := splitlinesAux_nlfree_append (l := x)
        (hnl x (List.mem_cons_self x [])) [] []
      rw [show x ++ ([] : List Char) = x by simp] at h2
      rw [h2]
      show (if (x.reverse ++ []).isEmpty then [] else [(x.reverse ++ []).reverse]) = [x]
      rw [if_neg (by
        simp only [List.append_nil, List.isEmpty_iff, List.reverse_eq_nil_iff]
        exact hne x (List.mem_cons_self x []))]
      simp
    | cons y ls3 =>
      show splitlinesAux (joinSep ['\n'] (x :: y :: ls3)) [] = x :: y :: ls3
      have hx : joinSep ['\n'] (x :: y :: ls3) = x ++ '\n' :: joinSep ['\n'] (y :: ls3) := by
        show x ++ ['\n'] ++ joinSep ['\n'] (y :: ls3) = _
        rw [List.append_assoc]
        rfl
      rw [hx]
      rw [splitlinesAux_nlfree_append (hnl x (List.mem_cons_self x _)) _ _]
      rw [splitlinesAux_cons_nl]
      rw [List.append_nil, List.reverse_reverse]
      have ih2 := ih (fun l hl => hne l (List.mem_cons_of_mem x hl))
        (fun l hl => hnl l (List.mem_cons_of_mem x hl))
      exact congrArg (x :: ·) ih2

theorem splitlinesAux_nlfree_out :
    ∀ (cs acc : List Char), (∀ c ∈ acc, isNl c = false) →
    ∀ l ∈ splitlinesAux cs acc, ∀ c ∈ l, isNl c = false := by
  intro cs acc
  induction cs, acc using splitlinesAux.induct with
  | case1 cur hcur =>
    intro hacc l hl c hc
    unfold splitlinesAux at hl
    rw [if_pos hcur] at hl
    simp at hl
  | case2 cur hcur =>
    intro hacc l hl c hc
    unfold splitlinesAux at hl
    rw [if_neg hcur] at hl
    rcases List.mem_singleton.mp hl with rfl
    exact hacc c (List.mem_reverse.mp hc)
  | case3 c cur hn =>
    intro hacc l hl d hd
    unfold splitlinesAux at hl
    rw [if_pos hn] at hl
    rcases List.mem_singleton.mp hl with rfl
    exact hacc d (List.mem_reverse.mp hd)
  | case4 c cur hn =>
    intro hacc l hl d hd
    unfold splitlinesAux at hl
    rw [if_neg hn] at hl
    rcases List.mem_singleton.mp hl with rfl
    rcases List.mem_cons.mp (List.mem_reverse.mp hd) with rfl | h2
    · exact Bool.eq_false_iff.mpr hn
    · exact hacc d h2
  | case5 rest cur ih =>
    intro hacc l hl d hd
    unfold splitlinesAux at hl
    rw [if_pos rfl, if_pos rfl] at hl
    rcases List.mem_cons.mp hl with rfl | h3
    · exact hacc d (List.mem_reverse.mp hd)
    · exact ih (by intro x hx; simp at hx) l h3 d hd
  | case6 c2 rest cur hne ih =>
    intro hacc l hl d hd
    unfold splitlinesAux at hl
    rw [if_pos rfl, if_neg hne] at hl
    rcases List.mem_cons.mp hl with rfl | h3
    · exact hacc d (List.mem_reverse.mp hd)
    · exact ih (by intro x hx; simp at hx) l h3 d hd
  | case7 c c2 rest cur hne hn ih =>
    intro hacc l hl d hd
    unfold splitlinesAux at hl
    rw [if_neg hne, if_pos hn] at hl
    rcases List.mem_cons.mp hl with rfl | h3
    · exact hacc d (List.mem_reverse.mp hd)
    · exact ih (by intro x hx; simp at hx) l h3 d hd
  | case8 c c2 rest cur hne hn ih =>
    intro hacc l hl d hd
    unfold splitlinesAux at hl
    rw [if_neg hne, if_neg hn] at hl
    refine ih ?_ l hl d hd
    intro x hx
    rcases List.mem_cons.mp hx with rfl | h3
    · exact Bool.eq_false_iff.mpr hn
    · exact hacc x h3

theorem mem_splitlines_nlfree {text l : List Char} (hl : l ∈ splitlines text) :
    ∀ c ∈ l, isNl c = false :=
  splitlinesAux_nlfree_out text [] (by intro x hx; simp at hx) l hl

end Helpers

namespace Helpers

open Py

theorem dropWhile_dropWhile (p : Char → Bool) (l : List Char) :
    (l.dropWhile p).dropWhile p = l.dropWhile p := by
  induction l with
  | nil => rfl
  | cons c cs ih =>
    by_cases h : p c = true
    · rw [List.dropWhile_cons_of_pos h]; exact ih
    · rw [List.dropWhile_cons_of_neg h, List.dropWhile_cons_of_neg h]

theorem head_dropWhile (p : Char → Bool) (l : List Char) :
    ∀ c, (l.dropWhile p).head? = some c → p c = false := by
  induction l with
  | nil => intro c hc; simp at hc
  | cons d cs ih =>
    intro c hc
    by_cases h : p d = true
    · rw [List.dropWhile_cons_of_pos h] at hc; exact ih c hc
    · rw [List.dropWhile_cons_of_neg h] at hc
      simp only [List.head?_cons, Option.some.injEq] at hc
      subst hc
      exact Bool.eq_false_iff.mpr h

theorem lstripP_of_head {p : Char → Bool} {l : List Char}
    (h : ∀ c, l.head? = some c → p c = false) : lstripP p l = l := by
  cases l with
  | nil => rfl
  | cons c cs =>
    unfold lstripP
    rw [List.dropWhile_cons_of_neg (by simp [h c rfl])]

theorem dropWhile_suffix_decomp (p : Char → Bool) (l : List Char) :
    ∃ t, l = t ++ l.dropWhile p :=
  ⟨l.takeWhile p, (List.takeWhile_append_dropWhile p l).symm⟩

theorem rstripP_prefix_decomp (p : Char → Bool) (l : List Char) :
    ∃ t, l = rstripP p l ++ t := by
  rcases dropWhile_suffix_decomp p l.reverse with ⟨s, hs⟩
  refine ⟨s.reverse, ?_⟩
  have := congrArg List.reverse hs
  rw [List.reverse_reverse, List.reverse_append] at this
  exact this

theorem mem_dropWhile {p : Char → Bool} {l : List Char} {c : Char}
    (h : c ∈ l.dropWhile p) : c ∈ l := by
  rcases dropWhile_suffix_decomp p l with ⟨t, ht⟩
  rw [ht]
  exact List.mem_append_right t h

theorem mem_stripP {p : Char → Bool} {l : List Char} {c : Char}
    (h : c ∈ stripP p l) : c ∈ l := by
  unfold stripP at h
  rcases rstripP_prefix_decomp p (lstripP p l) with ⟨t, ht⟩
  have h2 : c ∈ lstripP p l := by
    rw [ht]; exact List.mem_append_left t h
  exact mem_dropWhile h2

theorem rstripP_rstripP (p : Char → Bool) (l : List Char) :
    rstripP p (rstripP p l) = rstripP p l := by
  unfold rstripP
  rw [List.reverse_reverse, dropWhile_dropWhile]

theorem stripP_idem (p : Char → Bool) (l : List Char) :
    stripP p (stripP p l) = stripP p l := by
  unfold stripP
  have hhead : ∀ c, (rstripP p (lstripP p l)).head? = some c → p c = false := by
    intro c hc
    rcases rstripP_prefix_decomp p (lstripP p l) with ⟨t, ht⟩
    cases hz : rstripP p (lstripP p l) with
    | nil => rw [hz] at hc; simp at hc
    | cons d ds =>
      rw [hz] at hc ht
      simp only [List.head?_cons, Option.some.injEq] at hc
      have hd : (lstripP p l).head? = some d := by rw [ht]; rfl
      have hpd := head_dropWhile p l d hd
      rw [hc] at hpd
      exact hpd
  rw [lstripP_of_head hhead, rstripP_rstripP]

theorem map_id_of_mem {α : Type} (f : α → α) (l : List α) (h : ∀ x ∈ l, f x = x) :
    l.map f = l := by
  induction l with
  | nil => rfl
  | cons x xs ih =>
    rw [List.map_cons, h x (List.mem_cons_self x xs),
      ih (fun y hy => h y (List.mem_cons_of_mem x hy))]

theorem filter_eq_self_of_mem {α : Type} (p : α → Bool) (l : List α)
    (h : ∀ x ∈ l, p x = true) : l.filter p = l := by
  induction l with
  | nil => rfl
  | cons x xs ih =>
    rw [List.filter_cons_of_pos (h x (List.mem_cons_self x xs)),
      ih (fun y hy => h y (List.mem_cons_of_mem x hy))]

end Helpers

/-! ## C10: blacklist filtering -/

/-- C10: `parse_id_fields` depends only on the blacklist-surviving lines:
deleting every line containing a stock-photo watermark word from the
input text (before header detection, label matching, value accumulation
and fallback mining, which all consume the filtered `lines` list) leaves
the extraction result unchanged, so no extracted field derives from such
a line. -/
theorem C10_blacklist (text : List Char) :
    IdParser.parseIdFields (Py.joinSep ['\n'] (IdParser.goodLinesOf text)) =
      IdParser.parseIdFields text := by
  have hmemraw : ∀ x ∈ IdParser.rawLinesOf text,
      x ≠ [] ∧ Py.strip x = x ∧ (∀ c ∈ x, Py.isNl c = false) := by
    intro x hx
    unfold IdParser.rawLinesOf at hx
    have h1 := List.mem_filter.mp hx
    rcases List.mem_map.mp h1.1 with ⟨l, hl, rfl⟩
    refine ⟨by simpa using h1.2, Helpers.stripP_idem _ _, ?_⟩
    intro c hc
    exact Helpers.mem_splitlines_nlfree hl c (Helpers.mem_stripP hc)
  have hmem : ∀ x ∈ IdParser.goodLinesOf text,
      (x ≠ [] ∧ Py.strip x = x ∧ (∀ c ∈ x, Py.isNl c = false)) ∧
        IdParser.goodLine x = true := by
    intro x hx
    unfold IdParser.goodLinesOf at hx
    have h1 := List.mem_filter.mp hx
    exact ⟨hmemraw x h1.1, h1.2⟩
  unfold IdParser.parseIdFields
  congr 1
  show IdParser.goodLinesOf (Py.joinSep ['\n'] (IdParser.goodLinesOf text)) =
    IdParser.goodLinesOf text
  conv_lhs => rw [IdParser.goodLinesOf, IdParser.rawLinesOf]
  rw [Helpers.splitlines_joinSep (IdParser.goodLinesOf text)
    (fun l hl => ((hmem l hl).1).1)
    (fun l hl => ((hmem l hl).1).2.2)]
  rw [Helpers.map_id_of_mem Py.strip _ (fun l hl => ((hmem l hl).1).2.1)]
  rw [Helpers.filter_eq_self_of_mem (fun ln => decide (ln ≠ [])) (IdParser.goodLinesOf text)
    (fun l hl => by simpa using ((hmem l hl).1).1)]
  rw [Helpers.filter_eq_self_of_mem IdParser.goodLine (IdParser.goodLinesOf text)
    (fun l hl => (hmem l hl).2)]

namespace Helpers

open Py

theorem splitlinesAux_chars (P : Char → Prop) :
    ∀ (cs acc : List Char), (∀ c ∈ acc, P c) → (∀ c ∈ cs, P c) →
    ∀ l ∈ splitlinesAux cs acc, ∀ c ∈ l, P c := by
  intro cs acc
  induction cs, acc using splitlinesAux.induct with
  | case1 cur hcur =>
    intro hacc _ l hl c hc
    unfold splitlinesAux at hl
    rw [if_pos hcur] at hl
    simp at hl
  | case2 cur hcur =>
    intro hacc _ l hl c hc
    unfold splitlinesAux at hl
    rw [if_neg hcur] at hl
    rcases List.mem_singleton.mp hl with rfl
    exact hacc c (List.mem_reverse.mp hc)
  | case3 c cur hn =>
    intro hacc hcs l hl d hd
    unfold splitlinesAux at hl
    rw [if_pos hn] at hl
    rcases List.mem_singleton.mp hl with rfl
    exact hacc d (List.mem_reverse.mp hd)
  | case4 c cur hn =>
    intro hacc hcs l hl d hd
    unfold splitlinesAux at hl
    rw [if_neg hn] at hl
    rcases List.mem_singleton.mp hl with rfl
    rcases List.mem_cons.mp (List.mem_reverse.mp hd) with rfl | h2
    · exact hcs d (List.mem_singleton.mpr rfl)
    · exact hacc d h2
  | case5 rest cur ih =>
    intro hacc hcs l hl d hd
    unfold splitlinesAux at hl
    rw [if_pos rfl, if_pos rfl] at hl
    rcases List.mem_cons.mp hl with rfl | h3
    · exact hacc d (List.mem_reverse.mp hd)
    · exact ih (by intro x hx; simp at hx)
        (fun x hx => hcs x (List.mem_cons_of_mem _ (List.mem_cons_of_mem _ hx))) l h3 d hd
  | case6 c2 rest cur hne ih =>
    intro hacc hcs l hl d hd
    unfold splitlinesAux at hl
    rw [if_pos rfl, if_neg hne] at hl
    rcases List.mem_cons.mp hl with rfl | h3
    · exact hacc d (List.mem_reverse.mp hd)
    · exact ih (by intro x hx; simp at hx)
        (fun x hx => hcs x (List.mem_cons_of_mem _ hx)) l h3 d hd
  | case7 c c2 rest cur hne hn ih =>
    intro hacc hcs l hl d hd
    unfold splitlinesAux at hl
    rw [if_neg hne, if_pos hn] at hl
    rcases List.mem_cons.mp hl with rfl | h3
    · exact hacc d (List.mem_reverse.mp hd)
    · exact ih (by intro x hx; simp at hx)
        (fun x hx => hcs x (List.mem_cons_of_mem _ hx)) l h3 d hd
  | case8 c c2 rest cur hne hn ih =>
    intro hacc hcs l hl d hd
    unfold splitlinesAux at hl
    rw [if_neg hne, if_neg hn] at hl
    refine ih ?_ (fun x hx => hcs x (List.mem_cons_of_mem _ hx)) l hl d hd
    intro x hx
    rcases List.mem_cons.mp hx with rfl | h3
    · exact hcs x (List.mem_cons_self x _)
    · exact hacc x h3

theorem mem_splitlines_chars {P : Char → Prop} {text l : List Char}
    (htext : ∀ c ∈ text, P c) (hl : l ∈ splitlines text) : ∀ c ∈ l, P c :=
  splitlinesAux_chars P text [] (by intro x hx; simp at hx) htext l hl

/-- Round trip: splitting the newline-join of stripped nonempty
newline-free lines and re-cleaning gives the lines back. -/
theorem stripped_lines_roundtrip (ls : List (List Char))
    (h : ∀ x ∈ ls, x ≠ [] ∧ strip x = x ∧ ∀ c ∈ x, isNl c = false) :
    ((splitlines (joinSep ['\n'] ls)).map strip).filter (fun ln => ln ≠ []) = ls := by
  rw [splitlines_joinSep ls (fun l hl => (h l hl).1) (fun l hl => (h l hl).2.2)]
  rw [map_id_of_mem strip _ (fun l hl => (h l hl).2.1)]
  exact filter_eq_self_of_mem _ _ (fun l hl => by simpa using (h l hl).1)

theorem subAroundGo_no_d {d : Char} (repl : List Char) :
    ∀ (cs wsbuf : List Char), d ∉ cs →
    IdParser.subAroundGo d repl false wsbuf cs = wsbuf.reverse ++ cs := by
  intro cs
  induction cs with
  | nil => intro wsbuf _; simp [IdParser.subAroundGo]
  | cons c cs2 ih =>
    intro wsbuf hd
    have hcd : ¬(c = d) := fun he => hd (he ▸ List.mem_cons_self c cs2)
    have hd2 : d ∉ cs2 := fun he => hd (List.mem_cons_of_mem c he)
    unfold IdParser.subAroundGo
    rw [if_neg hcd]
    by_cases hws : isWs c = true
    · rw [if_pos hws]
      rw [ih (c :: wsbuf) hd2]
      simp
    · rw [if_neg hws]
      rw [ih [] hd2]
      simp

theorem subColonWs_nocolon {ln : List Char} (h : (':' : Char) ∉ ln) :
    IdParser.subColonWs ln = ln := by
  unfold IdParser.subColonWs
  rw [subAroundGo_no_d _ ln [] h]
  rfl

theorem tidyGo_nocolon :
    ∀ (lines acc : List (List Char)), (∀ ln ∈ lines, (':' : Char) ∉ ln) →
    IdParser.tidyGo acc lines = acc.reverse ++ lines := by
  intro lines
  induction lines with
  | nil => intro acc _; simp [IdParser.tidyGo]
  | cons ln rest ih =>
    intro acc h
    have hln : (':' : Char) ∉ ln := h ln (List.mem_cons_self ln rest)
    have hrest : ∀ l ∈ rest, (':' : Char) ∉ l := fun l hl => h l (List.mem_cons_of_mem ln hl)
    have hcolon : ¬(ln = [':']) := fun he => hln (he ▸ List.mem_singleton.mpr rfl)
    have hsub := subColonWs_nocolon hln
    have hhead : ¬(ln.head? = some ':') := by
      intro hh
      cases ln with
      | nil => simp at hh
      | cons c cs =>
        simp only [List.head?_cons, Option.some.injEq] at hh
        exact hln (hh ▸ List.mem_cons_self c cs)
    cases acc with
    | nil =>
      show IdParser.tidyGo [IdParser.subColonWs ln] rest = ln :: rest
      rw [hsub, ih [ln] hrest]
      rfl
    | cons last accTail =>
      cases rest with
      | nil =>
        show (if ln = [':'] then _ else _) = _
        rw [if_neg hcolon]
        simp only [hsub]
        rw [if_neg hhead]
        rw [show IdParser.tidyGo (ln :: last :: accTail) [] =
          (ln :: last :: accTail).reverse from rfl]
        simp
      | cons r rr =>
        show (if ln = [':'] then _ else _) = _
        rw [if_neg hcolon]
        simp only [hsub]
        rw [if_neg hhead]
        rw [ih (ln :: last :: accTail) hrest]
        simp

end Helpers

/-- C7 (amended): `tidy_text` is idempotent on every input containing no
colon character (the counterexample shows idempotence fails in general on
colon-bearing degenerate lines). -/
theorem C7_amended (text : List Char) (h : (':' : Char) ∉ text) :
    IdParser.tidyText (IdParser.tidyText text) = IdParser.tidyText text := by
  have hlines : ∀ ln ∈ ((Py.splitlines text).map Py.strip).filter (fun ln => ln ≠ []),
      (ln ≠ [] ∧ Py.strip ln = ln ∧ ∀ c ∈ ln, Py.isNl c = false) ∧ (':' : Char) ∉ ln := by
    intro ln hln
    have h1 := List.mem_filter.mp hln
    rcases List.mem_map.mp h1.1 with ⟨l, hl, rfl⟩
    refine ⟨⟨by simpa using h1.2, Helpers.stripP_idem _ _, ?_⟩, ?_⟩
    · intro c hc
      exact Helpers.mem_splitlines_nlfree hl c (Helpers.mem_stripP hc)
    · intro hc
      exact (Helpers.mem_splitlines_chars (P := fun c => c ∈ text)
        (fun c hcc => hcc) hl ':' (Helpers.mem_stripP hc)) |> h
  set lines := ((Py.splitlines text).map Py.strip).filter (fun ln => ln ≠ []) with hlinesdef
  have htidy1 : IdParser.tidyText text = Py.joinSep ['\n'] lines := by
    unfold IdParser.tidyText
    rw [Helpers.tidyGo_nocolon lines [] (fun ln hln => (hlines ln hln).2)]
    rfl
  rw [htidy1]
  unfold IdParser.tidyText
  rw [Helpers.stripped_lines_roundtrip lines (fun x hx => (hlines x hx).1)]
  rw [Helpers.tidyGo_nocolon lines [] (fun ln hln => (hlines ln hln).2)]
  rfl

/-- C7 witness: the amended idempotence applied to a concrete colon-free
input. -/
theorem C7_witness :
    ((':' : Char) ∉ "Name\nJohn  Smith\n\n ok ".toList) ∧
    IdParser.tidyText (IdParser.tidyText "Name\nJohn  Smith\n\n ok ".toList) =
      IdParser.tidyText "Name\nJohn  Smith\n\n ok ".toList :=
  ⟨by decide, C7_amended "Name\nJohn  Smith\n\n ok ".toList (by decide)⟩

/-! ## Regex engine metatheory -/

namespace Rx

theorem runStar_sound {α : Type} {p : Char → Bool} {k : List Char → Option Char → Option α}
    {r : α} : ∀ {cs : List Char} {prev : Option Char}, runStar p k cs prev = some r →
    ∃ n p1, Path (.star p) cs prev n p1 ∧ k (cs.drop n) p1 = some r := by
  intro cs
  induction cs with
  | nil =>
    intro prev h
    exact ⟨0, prev, Path.starNil, by simpa [runStar] using h⟩
  | cons c rest ih =>
    intro prev h
    unfold runStar at h
    by_cases hp : p c = true
    · rw [if_pos hp] at h
      cases hrec : runStar p k rest (some c) with
      | some r2 =>
        rw [hrec] at h
        simp only [Option.some.injEq] at h
        subst h
        rcases ih hrec with ⟨n, p1, hpath, hk⟩
        exact ⟨n + 1, p1, Path.starCons hp hpath, by simpa using hk⟩
      | none =>
        rw [hrec] at h
        exact ⟨0, prev, Path.starNil, by simpa using h⟩
    · rw [if_neg hp] at h
      exact ⟨0, prev, Path.starNil, by simpa using h⟩

theorem run_sound {α : Type} :
    ∀ (re : RE) {cs : List Char} {prev : Option Char}
      {k : List Char → Option Char → Option α} {r : α},
    run re cs prev k = some r → ∃ n p1, Path re cs prev n p1 ∧ k (cs.drop n) p1 = some r := by
  intro re
  induction re with
  | eps =>
    intro cs prev k r h
    exact ⟨0, prev, Path.eps, by simpa [run] using h⟩
  | chr p =>
    intro cs prev k r h
    cases cs with
    | nil => simp [run] at h
    | cons c rest =>
      have h2 : (if p c = true then k rest (some c) else none) = some r := h
      by_cases hp : p c = true
      · rw [if_pos hp] at h2
        exact ⟨1, some c, Path.chr hp, by simpa using h2⟩
      · rw [if_neg hp] at h2; simp at h2
  | seq a b iha ihb =>
    intro cs prev k r h
    unfold run at h
    rcases iha h with ⟨n, p1, hpa, hk1⟩
    rcases ihb hk1 with ⟨m, p2, hpb, hk2⟩
    refine ⟨n + m, p2, Path.seq hpa hpb, ?_⟩
    rw [show cs.drop (n + m) = (cs.drop n).drop m by rw [List.drop_drop, Nat.add_comm]]
    exact hk2
  | alt a b iha ihb =>
    intro cs prev k r h
    unfold run at h
    cases hra : run a cs prev k with
    | some r2 =>
      rw [hra] at h
      simp only [Option.some.injEq] at h
      subst h
      rcases iha hra with ⟨n, p1, hp, hk⟩
      exact ⟨n, p1, Path.altL hp, hk⟩
    | none =>
      rw [hra] at h
      rcases ihb h with ⟨n, p1, hp, hk⟩
      exact ⟨n, p1, Path.altR hp, hk⟩
  | opt a iha =>
    intro cs prev k r h
    unfold run at h
    cases hra : run a cs prev k with
    | some r2 =>
      rw [hra] at h
      simp only [Option.some.injEq] at h
      subst h
      rcases iha hra with ⟨n, p1, hp, hk⟩
      exact ⟨n, p1, Path.optSome hp, hk⟩
    | none =>
      rw [hra] at h
      exact ⟨0, prev, Path.optNone, by simpa using h⟩
  | star p =>
    intro cs prev k r h
    exact runStar_sound h
  | wb =>
    intro cs prev k r h
    unfold run at h
    by_cases hb : boundary prev cs.head? = true
    · rw [if_pos hb] at h
      exact ⟨0, prev, Path.wb hb, by simpa using h⟩
    · rw [if_neg hb] at h; simp at h

theorem Path.le_length {re : RE} : ∀ {cs : List Char} {prev : Option Char} {n : Nat}
    {p1 : Option Char}, Path re cs prev n p1 → n ≤ cs.length := by
  intro cs prev n p1 h
  induction h with
  | eps => simp
  | chr _ => simp
  | seq h1 h2 ih1 ih2 =>
    have h3 : _ ≤ (List.drop _ _).length := ih2
    rw [List.length_drop] at h3
    omega
  | altL _ ih => exact ih
  | altR _ ih => exact ih
  | optSome _ ih => exact ih
  | optNone => simp
  | starNil => simp
  | starCons _ _ ih => simpa using Nat.succ_le_succ ih
  | wb _ => simp

theorem Path.zero_prev {re : RE} : ∀ {cs : List Char} {prev : Option Char} {n : Nat}
    {p1 : Option Char}, Path re cs prev n p1 → n = 0 → p1 = prev := by
  intro cs prev n p1 h
  induction h with
  | eps => intro _; rfl
  | chr _ => intro h0; omega
  | seq h1 h2 ih1 ih2 =>
    intro h0
    rw [ih2 (by omega), ih1 (by omega)]
  | altL _ ih => exact ih
  | altR _ ih => exact ih
  | optSome _ ih => exact ih
  | optNone => intro _; rfl
  | starNil => intro _; rfl
  | starCons _ _ _ => intro h0; omega
  | wb _ => intro _; rfl

end Rx

namespace Rx

theorem runStar_of_k {α : Type} {p : Char → Bool} {k : List Char → Option Char → Option α}
    {cs : List Char} {prev : Option Char} (h : (k cs prev).isSome) :
    (runStar p k cs prev).isSome := by
  cases cs with
  | nil => simpa [runStar] using h
  | cons c rest =>
    unfold runStar
    by_cases hp : p c = true
    · rw [if_pos hp]
      cases hrec : runStar p k rest (some c) with
      | some r2 => simp
      | none => simpa using h
    · rw [if_neg hp]
      exact h

theorem run_complete {α : Type} {re : RE} {cs : List Char} {prev : Option Char} {n : Nat}
    {p1 : Option Char} (h : Path re cs prev n p1) :
    ∀ (k : List Char → Option Char → Option α) (r : α),
    k (cs.drop n) p1 = some r → (run re cs prev k).isSome := by
  induction h with
  | eps =>
    intro k r hk
    simpa [run] using congrArg Option.isSome hk
  | chr hp =>
    intro k r hk
    simp only [run]
    rw [if_pos hp]
    simpa using congrArg Option.isSome hk
  | @seq a b cs2 prev2 pa pb na ma h1 h2 ih1 ih2 =>
    intro k r hk
    have hk2 : k ((cs2.drop na).drop ma) pb = some r := by
      rw [List.drop_drop]
      exact hk
    have hb := ih2 k r hk2
    rcases Option.isSome_iff_exists.mp hb with ⟨rb, hrb⟩
    exact ih1 (fun rest p => run b rest p k) rb hrb
  | altL h ih =>
    intro k r hk
    have ha := ih k r hk
    show (match run _ _ _ k with | some r => some r | none => run _ _ _ k).isSome
    cases hra : run _ _ _ k with
    | some r2 => simp
    | none => rw [hra] at ha; simp at ha
  | altR h ih =>
    intro k r hk
    have hb := ih k r hk
    show (match run _ _ _ k with | some r => some r | none => run _ _ _ k).isSome
    cases hra : run _ _ _ k with
    | some r2 => simp
    | none => exact hb
  | optSome h ih =>
    intro k r hk
    have ha := ih k r hk
    show (match run _ _ _ k with | some r => some r | none => k _ _).isSome
    cases hra : run _ _ _ k with
    | some r2 => simp
    | none => rw [hra] at ha; simp at ha
  | optNone =>
    intro k r hk
    show (match run _ _ _ k with | some r => some r | none => k _ _).isSome
    cases hra : run _ _ _ k with
    | some r2 => simp
    | none => simpa using congrArg Option.isSome hk
  | starNil =>
    intro k r hk
    exact runStar_of_k (by simpa using congrArg Option.isSome hk)
  | starCons hp h ih =>
    intro k r hk
    have hin := ih k r (by simpa using hk)
    simp only [run] at hin ⊢
    unfold runStar
    rw [if_pos hp]
    cases hrec : runStar _ k _ (some _) with
    | some r2 => simp
    | none => rw [hrec] at hin; simp at hin
  | wb hb =>
    intro k r hk
    simp only [run]
    rw [if_pos hb]
    simpa using congrArg Option.isSome hk

end Rx

namespace Rx

theorem searchStep_sound {re : RE} {cs : List Char} {prev : Option Char}
    {g rest : List Char} (h : searchStep re cs prev = some (g, rest)) :
    ∃ n p1, Path re cs prev n p1 ∧ g = cs.take n ∧ rest = cs.drop n := by
  unfold searchStep at h
  cases hr : run re cs prev (fun rest _ => some rest) with
  | none => rw [hr] at h; simp at h
  | some rest0 =>
    rw [hr] at h
    simp only [Option.map_some'] at h
    have h1 : cs.take (cs.length - rest0.length) = g := congrArg Prod.fst (Option.some.inj h)
    have h2 : rest0 = rest := congrArg Prod.snd (Option.some.inj h)
    rcases run_sound re hr with ⟨n, p1, hp, hk⟩
    have hr0 : rest0 = cs.drop n := (Option.some.inj hk).symm
    have hn : n ≤ cs.length := Path.le_length hp
    have hlen : cs.length - rest0.length = n := by
      rw [hr0, List.length_drop]; omega
    refine ⟨n, p1, hp, ?_, ?_⟩
    · rw [← h1, hlen]
    · rw [← h2, hr0]

theorem searchFrom_sound {re : RE} : ∀ {cs : List Char} {prev : Option Char}
    {g rest : List Char}, searchFrom re cs prev = some (g, rest) →
    ∃ tail prev2 n p1, Path re tail prev2 n p1 ∧ g = tail.take n := by
  intro cs
  induction cs with
  | nil =>
    intro prev g rest h
    rcases searchStep_sound (show searchStep re [] prev = some (g, rest) from h) with
      ⟨n, p1, hp, hg, _⟩
    exact ⟨[], prev, n, p1, hp, hg⟩
  | cons c cs2 ih =>
    intro prev g rest h
    unfold searchFrom at h
    cases hs : searchStep re (c :: cs2) prev with
    | some r =>
      rw [hs] at h
      have hr : r = (g, rest) := Option.some.inj h
      subst hr
      rcases searchStep_sound hs with ⟨n, p1, hp, hg, _⟩
      exact ⟨c :: cs2, prev, n, p1, hp, hg⟩
    | none =>
      rw [hs] at h
      exact ih h

theorem search_sound {re : RE} {cs g rest : List Char}
    (h : search re cs = some (g, rest)) :
    ∃ tail prev2 n p1, Path re tail prev2 n p1 ∧ g = tail.take n :=
  searchFrom_sound h

theorem Path_eps_inv {cs : List Char} {prev p1 : Option Char} {n : Nat}
    (h : Path .eps cs prev n p1) : n = 0 ∧ p1 = prev := by
  cases h with
  | eps => exact ⟨rfl, rfl⟩

theorem Path_chr_inv {p : Char → Bool} {cs : List Char} {prev p1 : Option Char} {n : Nat}
    (h : Path (.chr p) cs prev n p1) :
    ∃ c rest, cs = c :: rest ∧ n = 1 ∧ p1 = some c ∧ p c = true := by
  cases h with
  | chr hp => exact ⟨_, _, rfl, rfl, rfl, hp⟩

theorem Path_seq_inv {a b : RE} {cs : List Char} {prev p2 : Option Char} {n : Nat}
    (h : Path (.seq a b) cs prev n p2) :
    ∃ na ma pa, n = na + ma ∧ Path a cs prev na pa ∧ Path b (cs.drop na) pa ma p2 := by
  cases h with
  | seq h1 h2 => exact ⟨_, _, _, rfl, h1, h2⟩

theorem Path_alt_inv {a b : RE} {cs : List Char} {prev p1 : Option Char} {n : Nat}
    (h : Path (.alt a b) cs prev n p1) :
    Path a cs prev n p1 ∨ Path b cs prev n p1 := by
  cases h with
  | altL h => exact Or.inl h
  | altR h => exact Or.inr h

theorem Path_opt_inv {a : RE} {cs : List Char} {prev p1 : Option Char} {n : Nat}
    (h : Path (.opt a) cs prev n p1) :
    Path a cs prev n p1 ∨ (n = 0 ∧ p1 = prev) := by
  cases h with
  | optSome h => exact Or.inl h
  | optNone => exact Or.inr ⟨rfl, rfl⟩

theorem Path_wb_inv {cs : List Char} {prev p1 : Option Char} {n : Nat}
    (h : Path .wb cs prev n p1) :
    n = 0 ∧ p1 = prev ∧ boundary prev cs.head? = true := by
  cases h with
  | wb hb => exact ⟨rfl, rfl, hb⟩

theorem Path_star_all {re : RE} {cs : List Char} {prev p1 : Option Char} {n : Nat}
    (h : Path re cs prev n p1) : ∀ q, re = .star q → (cs.take n).all q = true := by
  induction h with
  | eps => intro q hq; cases hq
  | chr hp => intro q hq; cases hq
  | seq h1 h2 ih1 ih2 => intro q hq; cases hq
  | altL h ih => intro q hq; cases hq
  | altR h ih => intro q hq; cases hq
  | optSome h ih => intro q hq; cases hq
  | optNone => intro q hq; cases hq
  | starNil => intro q hq; simp
  | starCons hp h2 ih =>
    intro q hq
    cases hq
    simp only [List.take_succ_cons, List.all_cons, Bool.and_eq_true]
    exact ⟨hp, ih _ rfl⟩
  | wb hb => intro q hq; cases hq

theorem Path_chN {p : Char → Bool} :
    ∀ (m : Nat) {cs : List Char} {prev p1 : Option Char} {n : Nat},
    Path (chN p m) cs prev n p1 → n = m ∧ (cs.take m).all p = true := by
  intro m
  induction m with
  | zero =>
    intro cs prev p1 n h
    rcases Path_eps_inv (show Path .eps cs prev n p1 from h) with ⟨rfl, _⟩
    exact ⟨rfl, by simp⟩
  | succ m ih =>
    intro cs prev p1 n h
    rcases Path_seq_inv (show Path (.seq (.chr p) (chN p m)) cs prev n p1 from h) with
      ⟨na, ma, pa, rfl, hA, hB⟩
    rcases Path_chr_inv hA with ⟨c, rest, rfl, rfl, hpa, hpc⟩
    have hB2 : Path (chN p m) rest pa ma p1 := by simpa using hB
    rcases ih hB2 with ⟨rfl, hall⟩
    refine ⟨by omega, ?_⟩
    simp only [List.take_succ_cons, List.all_cons, Bool.and_eq_true]
    exact ⟨hpc, hall⟩

end Rx

namespace IdParser

open Py Rx

theorem dget_dset_ne (d : PDict) (k k2 : String) (v : List Char) (h : k2 ≠ k) :
    dget (dset d k v) k2 = dget d k2 :=
  Dict.aget_aset_ne d k k2 v h

theorem dget_dset_self (d : PDict) (k : String) (v : List Char) :
    dget (dset d k v) k = some v :=
  Dict.aget_aset_self d k v

theorem dhas_eq_false {d : PDict} {k : String} (h : dget d k = none) :
    dhas d k = false := by
  unfold dhas
  rw [Dict.ahas_iff_aget]
  have h2 : Dict.aget d k = none := h
  rw [h2]
  rfl

theorem fbEmail_ne (blob : List Char) (d : PDict) (k : String) (hk : k ≠ "email") :
    dget (fbEmail blob d) k = dget d k := by
  unfold fbEmail
  cases hhas : dhas d "email" with
  | true => simp
  | false =>
    simp only [Bool.not_false]
    rw [if_pos trivial]
    cases hs : Rx.search emailRE blob with
    | some gr =>
      obtain ⟨g, r⟩ := gr
      exact dget_dset_ne d "email" k g hk
    | none => rfl

theorem fbWebsite_ne (blob : List Char) (d : PDict) (k : String) (hk : k ≠ "website") :
    dget (fbWebsite blob d) k = dget d k := by
  unfold fbWebsite
  cases hhas : dhas d "website" with
  | true => simp
  | false =>
    simp only [Bool.not_false]
    rw [if_pos trivial]
    cases hs1 : Rx.search websiteRE1 blob with
    | some gr =>
      obtain ⟨g, r⟩ := gr
      exact dget_dset_ne d "website" k _ hk
    | none =>
      cases hs2 : Rx.search websiteRE2 blob with
      | some gr =>
        obtain ⟨g, r⟩ := gr
        exact dget_dset_ne d "website" k _ hk
      | none => rfl

theorem fbDob_ne (blob : List Char) (d : PDict) (k : String) (hk : k ≠ "dob") :
    dget (fbDob blob d) k = dget d k := by
  unfold fbDob
  cases hhas : dhas d "dob" with
  | true => simp
  | false =>
    simp only [Bool.not_false]
    rw [if_pos trivial]
    cases hs : Rx.search dateRE blob with
    | some gr =>
      obtain ⟨g, r⟩ := gr
      exact dget_dset_ne d "dob" k g hk
    | none => rfl

theorem fbAdm_ne (blob : List Char) (d : PDict) (k : String) (hk : k ≠ "adm_no") :
    dget (fbAdm blob d) k = dget d k := by
  unfold fbAdm
  cases hhas : dhas d "adm_no" with
  | true => simp
  | false =>
    simp only [Bool.not_false]
    rw [if_pos trivial]
    cases hs : Rx.search idRunRE blob with
    | some gr =>
      obtain ⟨g, r⟩ := gr
      show dget (if !startsWithL ['+'] (strip g) then dset d "adm_no" g else d) k = dget d k
      cases hpl : startsWithL ['+'] (strip g)
      · simp only [hpl, Bool.not_false, if_pos trivial]
        exact dget_dset_ne d "adm_no" k g hk
      · simp [hpl]
    | none => rfl

theorem fbPhone_ne (d : PDict) (k : String) (hk : k ≠ "phone") :
    dget (fbPhone d) k = dget d k := by
  unfold fbPhone
  cases hv : dget d "phone" with
  | some v => exact dget_dset_ne d "phone" k _ hk
  | none => rfl

theorem fbSite2_ne (d : PDict) (k : String) (hk : k ≠ "website") :
    dget (fbSite2 d) k = dget d k := by
  unfold fbSite2
  cases hv : dget d "website" with
  | some v => exact dget_dset_ne d "website" k _ hk
  | none => rfl

theorem fbCard_ne (d : PDict) (k : String) (hk : k ≠ "card_type") :
    dget (fbCard d) k = dget d k := by
  unfold fbCard
  cases hv : dget d "card_type" with
  | some v => exact dget_dset_ne d "card_type" k _ hk
  | none => rfl

theorem fbAdm_none (blob : List Char) (d : PDict) (h : dget d "adm_no" = none) :
    dget (fbAdm blob d) "adm_no" =
      match Rx.search idRunRE blob with
      | some (g, _) => if !startsWithL ['+'] (strip g) then some g else none
      | none => none := by
  unfold fbAdm
  rw [dhas_eq_false h]
  simp only [Bool.not_false]
  rw [if_pos trivial]
  cases hs : Rx.search idRunRE blob with
  | some gr =>
    obtain ⟨g, r⟩ := gr
    show dget (if !startsWithL ['+'] (strip g) then dset d "adm_no" g else d) "adm_no" =
      if !startsWithL ['+'] (strip g) then some g else none
    cases hpl : startsWithL ['+'] (strip g)
    · simp only [hpl, Bool.not_false, if_pos trivial]
      exact dget_dset_self d "adm_no" g
    · simp [hpl]
      exact h
  | none => exact h

end IdParser

namespace IdParser

theorem fallback_adm (lines : List (List Char)) (out3 : PDict)
    (h : dget out3 "adm_no" = none) :
    dget (fallbackPhase lines out3) "adm_no" =
      match Rx.search idRunRE (Py.joinSep [' '] lines) with
      | some (g, _) => if !Py.startsWithL ['+'] (Py.strip g) then some g else none
      | none => none := by
  have hD : dget (fbDob (Py.joinSep [' '] lines)
      (fbWebsite (Py.joinSep [' '] lines)
        (fbEmail (Py.joinSep [' '] lines) out3))) "adm_no" = none := by
    rw [fbDob_ne _ _ _ (by decide), fbWebsite_ne _ _ _ (by decide),
      fbEmail_ne _ _ _ (by decide)]
    exact h
  show dget (fbCard (fbSite2 (fbPhone (fbAdm (Py.joinSep [' '] lines)
      (fbDob (Py.joinSep [' '] lines) (fbWebsite (Py.joinSep [' '] lines)
        (fbEmail (Py.joinSep [' '] lines) out3))))))) "adm_no" = _
  rw [fbCard_ne _ _ (by decide), fbSite2_ne _ _ (by decide), fbPhone_ne _ _ (by decide),
    fbAdm_none _ _ hD]

theorem idrun_facts {cs g rest : List Char}
    (h : Rx.search idRunRE cs = some (g, rest)) :
    7 ≤ g.length ∧ (∃ c t, g = c :: t ∧ Py.isDigit09 c = true) ∧
      g.all idRunCls = true := by
  rcases Rx.search_sound h with ⟨tail, prev2, n, p1, hp, hg⟩
  have hlen := Rx.Path.le_length hp
  rcases Rx.Path_seq_inv hp with ⟨n0, m1, pa, hn, hwb, h1⟩
  rcases Rx.Path_wb_inv hwb with ⟨hn0, hpa, hbd⟩
  subst hn0 hpa hn
  rw [List.drop_zero] at h1
  rcases Rx.Path_seq_inv h1 with ⟨nc, m2, pc, hm1, hchr, h2⟩
  rcases Rx.Path_chr_inv hchr with ⟨c, t, htail, hnc, hpc, hdig⟩
  subst htail hnc hpc hm1
  rw [List.drop_one, List.tail_cons] at h2
  rcases Rx.Path_seq_inv h2 with ⟨n6, m3, pd, hm2, hch6, h3⟩
  rcases Rx.Path_chN 6 hch6 with ⟨hn6, hall6⟩
  subst hn6 hm2
  rcases Rx.Path_seq_inv h3 with ⟨ns, nw, pe, hm3, hstar, hwb2⟩
  have hallS := Rx.Path_star_all hstar _ rfl
  rcases Rx.Path_wb_inv hwb2 with ⟨hnw, _, _⟩
  subst hnw hm3
  have harith : 0 + (1 + (6 + m3)) = (6 + m3) + 1 := by omega
  rw [harith] at hg hlen
  rw [List.take_succ_cons] at hg
  rw [List.length_cons] at hlen
  have htlen : 6 + m3 ≤ t.length := by omega
  refine ⟨?_, ⟨c, t.take (6 + m3), hg, hdig⟩, ?_⟩
  · rw [hg]
    simp only [List.length_cons, List.length_take]
    omega
  · rw [hg]
    have hsplit : t.take (6 + m3) = t.take 6 ++ (t.drop 6).take m3 := List.take_add t 6 m3
    rw [hsplit]
    simp only [List.all_cons, List.all_append, Bool.and_eq_true]
    refine ⟨?_, hall6, hallS⟩
    simp [idRunCls, hdig]

end IdParser

/-- C6 (amended): when labelling left `adm_no` unset and fallback mining
sets it, the stored candidate is a match of the fallback identifier
pattern (word boundary, one digit, six or more characters of the
digit-space-dash-slash-dot class, word boundary): at least 7 characters
long (not 7 digits), starting with a digit, and consisting entirely of
digits, whitespace, dashes, slashes and dots (the claim's class also
omits the dot).  A single digit followed by six separator-class
characters qualifies, so "1 2 3 4" (four digits) is accepted. -/
theorem C6_amended (text g : List Char)
    (h0 : IdParser.dget (IdParser.labelPhase (IdParser.goodLinesOf text)) "adm_no" = none)
    (h : IdParser.dget (IdParser.parseIdFields text) "adm_no" = some g) :
    7 ≤ g.length ∧ (∃ c t, g = c :: t ∧ Py.isDigit09 c = true) ∧
      g.all IdParser.idRunCls = true := by
  have hc := IdParser.fallback_adm (IdParser.goodLinesOf text)
    (IdParser.labelPhase (IdParser.goodLinesOf text)) h0
  have hpf : IdParser.parseIdFields text =
      IdParser.fallbackPhase (IdParser.goodLinesOf text)
        (IdParser.labelPhase (IdParser.goodLinesOf text)) := rfl
  rw [hpf, hc] at h
  cases hs : Rx.search IdParser.idRunRE (Py.joinSep [' '] (IdParser.goodLinesOf text)) with
  | none => rw [hs] at h; simp at h
  | some gr =>
    obtain ⟨g2, r⟩ := gr
    rw [hs] at h
    have h2 : (if !Py.startsWithL ['+'] (Py.strip g2) then some g2 else none) = some g := h
    cases hpl : Py.startsWithL ['+'] (Py.strip g2)
    · rw [hpl] at h2
      simp at h2
      subst h2
      exact IdParser.idrun_facts hs
    · rw [hpl] at h2
      simp at h2

/-- C6 witness: on the text "1 2 3 4" the labelling phase leaves `adm_no`
unset, fallback mining stores "1 2 3 4", and the amended theorem's
conclusions hold for it. -/
theorem C6_witness :
    (IdParser.dget (IdParser.labelPhase (IdParser.goodLinesOf "1 2 3 4".toList))
        "adm_no" = none ∧
      IdParser.dget (IdParser.parseIdFields "1 2 3 4".toList) "adm_no" =
        some "1 2 3 4".toList) ∧
    (7 ≤ "1 2 3 4".toList.length ∧
      (∃ c t, "1 2 3 4".toList = c :: t ∧ Py.isDigit09 c = true) ∧
      "1 2 3 4".toList.all IdParser.idRunCls = true) :=
  ⟨⟨by decide, by decide⟩,
    C6_amended "1 2 3 4".toList "1 2 3 4".toList (by decide) (by decide)⟩

namespace Rx

theorem nonNullable_pos {re : RE} {cs : List Char} {prev p1 : Option Char} {n : Nat}
    (h : Path re cs prev n p1) : nonNullable re = true → 0 < n := by
  induction h with
  | eps => intro hf; simp [nonNullable] at hf
  | chr hp => intro _; omega
  | seq h1 h2 ih1 ih2 =>
    intro hf
    simp only [nonNullable, Bool.or_eq_true] at hf
    rcases hf with hf1 | hf2
    · have := ih1 hf1; omega
    · have := ih2 hf2; omega
  | altL h ih => intro hf; simp only [nonNullable, Bool.and_eq_true] at hf; exact ih hf.1
  | altR h ih => intro hf; simp only [nonNullable, Bool.and_eq_true] at hf; exact ih hf.2
  | optSome h ih => intro hf; simp [nonNullable] at hf
  | optNone => intro hf; simp [nonNullable] at hf
  | starNil => intro hf; simp [nonNullable] at hf
  | starCons hp h2 ih => intro hf; simp [nonNullable] at hf
  | wb hb => intro hf; simp [nonNullable] at hf

theorem startsIn_head {q : Char → Bool} {re : RE} {cs : List Char} {prev p1 : Option Char}
    {n : Nat} (h : Path re cs prev n p1) :
    StartsIn q re → 0 < n → ∃ c, cs.head? = some c ∧ q c = true := by
  induction h with
  | eps => intro _ hn; omega
  | chr hp => intro hs hn; simp only [StartsIn] at hs; exact ⟨_, rfl, hs _ hp⟩
  | @seq a b cs2 prev2 pa pb na ma h1 h2 ih1 ih2 =>
    intro hs hn
    simp only [StartsIn] at hs
    rcases hs with ⟨hsa, hrest⟩
    by_cases hna : 0 < na
    · exact ih1 hsa hna
    · have hna0 : na = 0 := by omega
      subst hna0
      rcases hrest with hnn | hsb
      · exact absurd (nonNullable_pos h1 hnn) (by omega)
      · have hr := ih2 hsb (by omega)
        rw [List.drop_zero] at hr
        exact hr
  | altL h ih => intro hs hn; simp only [StartsIn] at hs; exact ih hs.1 hn
  | altR h ih => intro hs hn; simp only [StartsIn] at hs; exact ih hs.2 hn
  | optSome h ih => intro hs hn; simp only [StartsIn] at hs; exact ih hs hn
  | optNone => intro _ hn; omega
  | starNil => intro _ hn; omega
  | starCons hp h2 ih => intro hs hn; simp only [StartsIn] at hs; exact ⟨_, rfl, hs _ hp⟩
  | wb hb => intro _ hn; omega

theorem endsIn_last {q : Char → Bool} {re : RE} {cs : List Char} {prev p1 : Option Char}
    {n : Nat} (h : Path re cs prev n p1) :
    EndsIn q re → 0 < n → ∃ c, p1 = some c ∧ q c = true := by
  induction h with
  | eps => intro _ hn; omega
  | chr hp => intro hs hn; simp only [EndsIn] at hs; exact ⟨_, rfl, hs _ hp⟩
  | @seq a b cs2 prev2 pa pb na ma h1 h2 ih1 ih2 =>
    intro hs hn
    simp only [EndsIn] at hs
    rcases hs with ⟨hsb, hrest⟩
    by_cases hma : 0 < ma
    · exact ih2 hsb hma
    · have hma0 : ma = 0 := by omega
      subst hma0
      have hpb : pb = pa := Path.zero_prev h2 rfl
      subst hpb
      rcases hrest with hnn | hsa
      · exact absurd (nonNullable_pos h2 hnn) (by omega)
      · exact ih1 hsa (by omega)
  | altL h ih => intro hs hn; simp only [EndsIn] at hs; exact ih hs.1 hn
  | altR h ih => intro hs hn; simp only [EndsIn] at hs; exact ih hs.2 hn
  | optSome h ih => intro hs hn; simp only [EndsIn] at hs; exact ih hs hn
  | optNone => intro _ hn; omega
  | starNil => intro _ hn; omega
  | @starCons p c rest prev2 p1x nr hp h2 ih =>
    intro hs hn
    simp only [EndsIn] at hs
    by_cases hnr : 0 < nr
    · exact ih hs hnr
    · have hnr0 : nr = 0 := by omega
      subst hnr0
      have h0 : p1x = some c := Path.zero_prev h2 rfl
      exact ⟨c, h0, hs _ hp⟩
  | wb hb => intro _ hn; omega

theorem Path.last_mem {re : RE} {cs : List Char} {prev p1 : Option Char} {n : Nat}
    (h : Path re cs prev n p1) :
    0 < n → ∃ c, p1 = some c ∧ (cs.take n).getLast? = some c := by
  induction h with
  | eps => intro hn; omega
  | chr hp => intro _; exact ⟨_, rfl, by simp⟩
  | @seq a b cs2 prev2 pa pb na ma h1 h2 ih1 ih2 =>
    intro hn
    by_cases hma : 0 < ma
    · rcases ih2 hma with ⟨c, hc, hl⟩
      refine ⟨c, hc, ?_⟩
      rw [List.take_add]
      have hne : (List.take ma (List.drop na cs2)) ≠ [] := by
        intro he; rw [he] at hl; simp at hl
      rw [List.getLast?_append_of_ne_nil _ hne]
      exact hl
    · have hma0 : ma = 0 := by omega
      subst hma0
      have hpb : pb = pa := Path.zero_prev h2 rfl
      subst hpb
      rcases ih1 (by omega) with ⟨c, hc, hl⟩
      exact ⟨c, hc, by rw [Nat.add_zero]; exact hl⟩
  | altL h ih => exact ih
  | altR h ih => exact ih
  | optSome h ih => exact ih
  | optNone => intro hn; omega
  | starNil => intro hn; omega
  | @starCons p c rest prev2 p1x nr hp h2 ih =>
    intro hn
    by_cases hnr : 0 < nr
    · rcases ih hnr with ⟨d, hd, hl⟩
      refine ⟨d, hd, ?_⟩
      rw [List.take_succ_cons]
      have hne : rest.take nr ≠ [] := by
        intro he; rw [he] at hl; simp at hl
      rw [show c :: rest.take nr = [c] ++ rest.take nr from rfl,
        List.getLast?_append_of_ne_nil _ hne]
      exact hl
    · have hnr0 : nr = 0 := by omega
      subst hnr0
      have h0 : p1x = some c := Path.zero_prev h2 rfl
      exact ⟨c, h0, by simp⟩
  | wb hb => intro hn; omega

theorem Path.truncate {re : RE} {cs : List Char} {prev p1 : Option Char} {n : Nat}
    (h : Path re cs prev n p1) : wbFree re = true →
    ∀ ext : List Char, Path re (cs.take n ++ ext) prev n p1 := by
  induction h with
  | eps => intro _ ext; exact Path.eps
  | chr hp => intro _ ext; exact Path.chr hp
  | @seq a b cs2 prev2 pa pb na ma h1 h2 ih1 ih2 =>
    intro hf ext
    simp only [wbFree, Bool.and_eq_true] at hf
    have hA := ih1 hf.1 (List.take ma (List.drop na cs2) ++ ext)
    have hB := ih2 hf.2 ext
    have hlen1 : na ≤ cs2.length := Path.le_length h1
    have hdrop : List.drop na (List.take na cs2 ++ (List.take ma (List.drop na cs2) ++ ext)) =
        List.take ma (List.drop na cs2) ++ ext := by
      apply List.drop_left'
      rw [List.length_take]
      omega
    rw [List.take_add, List.append_assoc]
    exact Path.seq hA (by rw [hdrop]; exact hB)
  | altL h ih =>
    intro hf ext
    simp only [wbFree, Bool.and_eq_true] at hf
    exact Path.altL (ih hf.1 ext)
  | altR h ih =>
    intro hf ext
    simp only [wbFree, Bool.and_eq_true] at hf
    exact Path.altR (ih hf.2 ext)
  | optSome h ih =>
    intro hf ext
    simp only [wbFree] at hf
    exact Path.optSome (ih hf ext)
  | optNone => intro _ ext; exact Path.optNone
  | starNil => intro _ ext; exact Path.starNil
  | @starCons p c rest prev2 p1x nr hp h2 ih =>
    intro _ ext
    exact Path.starCons hp (ih rfl ext)
  | wb hb => intro hf ext; simp [wbFree] at hf

theorem Path.prev_change {re : RE} {cs : List Char} {prev p1 : Option Char} {n : Nat}
    (h : Path re cs prev n p1) : wbFree re = true →
    ∀ prev2, Path re cs prev2 n (if n = 0 then prev2 else p1) := by
  induction h with
  | eps => intro _ prev2; exact Path.eps
  | chr hp => intro _ prev2; exact Path.chr hp
  | @seq a b cs2 prevX pa pb na ma h1 h2 ih1 ih2 =>
    intro hf prev2
    simp only [wbFree, Bool.and_eq_true] at hf
    by_cases hz : na + ma = 0
    · rw [if_pos hz]
      have hna0 : na = 0 := by omega
      have hma0 : ma = 0 := by omega
      subst hna0 hma0
      have hA := ih1 hf.1 prev2
      rw [if_pos rfl] at hA
      have hB := ih2 hf.2 prev2
      rw [if_pos rfl] at hB
      exact Path.seq hA hB
    · rw [if_neg hz]
      by_cases hna : 0 < na
      · have hA := ih1 hf.1 prev2
        rw [if_neg (by omega)] at hA
        exact Path.seq hA h2
      · have hna0 : na = 0 := by omega
        subst hna0
        have hA := ih1 hf.1 prev2
        rw [if_pos rfl] at hA
        have hB := ih2 hf.2 prev2
        rw [if_neg (by omega)] at hB
        exact Path.seq hA hB
  | altL h ih =>
    intro hf prev2
    simp only [wbFree, Bool.and_eq_true] at hf
    exact Path.altL (ih hf.1 prev2)
  | altR h ih =>
    intro hf prev2
    simp only [wbFree, Bool.and_eq_true] at hf
    exact Path.altR (ih hf.2 prev2)
  | optSome h ih =>
    intro hf prev2
    simp only [wbFree] at hf
    exact Path.optSome (ih hf prev2)
  | optNone => intro _ prev2; exact Path.optNone
  | starNil => intro _ prev2; exact Path.starNil
  | @starCons p c rest prev2x p1x nr hp h2 ih =>
    intro _ prev2
    exact Path.starCons hp h2
  | wb hb => intro hf; simp [wbFree] at hf

end Rx

namespace Helpers

theorem dig_digit (c : Char) (h : Py.isDigit09 c = true) : Char.isDigit c = true := by
  simp only [Py.isDigit09, Bool.and_eq_true, decide_eq_true_eq] at h
  simp only [Char.isDigit, Bool.and_eq_true, decide_eq_true_eq]
  rcases h with ⟨h1, h2⟩
  rw [Char.le_def] at h1 h2
  exact ⟨h1, h2⟩

theorem dig_word (c : Char) (h : Py.isDigit09 c = true) : Py.isWord c = true := by
  simp only [Py.isWord, Char.isAlphanum, Bool.or_eq_true]
  exact Or.inl (Or.inr (dig_digit c h))

theorem alphaAZ_word (c : Char) (h : Py.isAlphaAZ c = true) : Py.isWord c = true := by
  simp only [Py.isAlphaAZ, Py.isUpperAZ, Py.isLowerAZ, Bool.or_eq_true, Bool.and_eq_true,
    decide_eq_true_eq] at h
  simp only [Py.isWord, Char.isAlphanum, Char.isAlpha, Char.isUpper, Char.isLower,
    Bool.or_eq_true, Bool.and_eq_true, decide_eq_true_eq]
  rcases h with ⟨h1, h2⟩ | ⟨h1, h2⟩ <;> rw [Char.le_def] at h1 h2
  · exact Or.inl (Or.inl (Or.inl ⟨h1, h2⟩))
  · exact Or.inl (Or.inl (Or.inr ⟨h1, h2⟩))

theorem word_not_ws (c : Char) (h : Py.isWord c = true) : Py.isWs c = false := by
  by_contra hc
  rw [Bool.not_eq_false] at hc
  simp only [Py.isWs, Bool.or_eq_true, decide_eq_true_eq] at hc
  rcases hc with ((((rfl | rfl) | rfl) | rfl) | rfl) | rfl <;> revert h <;> decide

theorem head_take_pos {α : Type} {l : List α} {n : Nat} (hn : 0 < n) :
    (l.take n).head? = l.head? := by
  cases l with
  | nil => simp
  | cons a t =>
    cases n with
    | zero => omega
    | succ m => simp [List.take_succ_cons]

theorem dropWhile_eq_self_of_head {p : Char → Bool} {l : List Char}
    (h : ∀ c, l.head? = some c → p c = false) : l.dropWhile p = l := by
  cases l with
  | nil => rfl
  | cons a t =>
    rw [List.dropWhile_cons]
    simp [h a rfl]

theorem stripP_eq_self (p : Char → Bool) (l : List Char)
    (h1 : ∀ c, l.head? = some c → p c = false)
    (h2 : ∀ c, l.getLast? = some c → p c = false) : Py.stripP p l = l := by
  unfold Py.stripP Py.rstripP Py.lstripP
  rw [dropWhile_eq_self_of_head h1]
  rw [dropWhile_eq_self_of_head (fun c hc => h2 c (by rwa [List.head?_reverse] at hc))]
  exact List.reverse_reverse l

end Helpers

namespace Rx

theorem StartsIn_chN {q p : Char → Bool} (hpq : ∀ c, p c = true → q c = true) :
    ∀ m, StartsIn q (chN p m)
  | 0 => trivial
  | _ + 1 => ⟨hpq, Or.inl rfl⟩

theorem EndsIn_chN {q p : Char → Bool} (hpq : ∀ c, p c = true → q c = true) :
    ∀ m, EndsIn q (chN p m)
  | 0 => trivial
  | m + 1 => ⟨EndsIn_chN hpq m, Or.inr hpq⟩

theorem EndsIn_optsN {q p : Char → Bool} (hpq : ∀ c, p c = true → q c = true) :
    ∀ m, EndsIn q (optsN p m)
  | 0 => trivial
  | m + 1 => ⟨EndsIn_optsN hpq m, Or.inr hpq⟩

theorem EndsIn_rep {q p : Char → Bool} (hpq : ∀ c, p c = true → q c = true)
    (lo hi : Nat) : EndsIn q (rep p lo hi) :=
  ⟨EndsIn_optsN hpq _, Or.inr (EndsIn_chN hpq _)⟩

end Rx

namespace IdParser

theorem startsIn_dateBody : Rx.StartsIn Py.isWord dateBody :=
  ⟨⟨⟨Rx.StartsIn_chN Helpers.dig_word 1, Or.inl rfl⟩, Or.inl rfl⟩,
   ⟨⟨Rx.StartsIn_chN Helpers.alphaAZ_word 3, Or.inl rfl⟩, Or.inl rfl⟩,
   ⟨Rx.StartsIn_chN Helpers.dig_word 4, Or.inl rfl⟩⟩

theorem endsIn_dateBody : Rx.EndsIn Py.isWord dateBody :=
  ⟨⟨⟨⟨⟨Rx.EndsIn_rep Helpers.dig_word 2 4, Or.inl rfl⟩, Or.inl rfl⟩, Or.inl rfl⟩, Or.inl rfl⟩,
   ⟨⟨⟨⟨⟨Rx.EndsIn_chN Helpers.dig_word 4, Or.inl rfl⟩, Or.inl rfl⟩, Or.inl rfl⟩,
      Or.inl rfl⟩, Or.inl rfl⟩,
   ⟨⟨⟨⟨Rx.EndsIn_rep Helpers.dig_word 1 2, Or.inl rfl⟩, Or.inl rfl⟩, Or.inl rfl⟩, Or.inl rfl⟩⟩

end IdParser

namespace IdParser

theorem date_search_isDate {cs g rest : List Char}
    (h : Rx.search dateRE cs = some (g, rest)) : isDate g = true := by
  rcases Rx.search_sound h with ⟨tail, prev2, n, p1, hp, hg⟩
  have hlen := Rx.Path.le_length hp
  rcases Rx.Path_seq_inv hp with ⟨n0, m1, pa, hn, hwb, h1⟩
  rcases Rx.Path_wb_inv hwb with ⟨hn0, hpa, hbd⟩
  subst hn0 hpa hn
  rw [List.drop_zero] at h1
  rcases Rx.Path_seq_inv h1 with ⟨nb, nw, pb, hm1, hbody, hwb2⟩
  rcases Rx.Path_wb_inv hwb2 with ⟨hnw, hpw, hbd2⟩
  subst hnw hm1 hpw
  have hpos : 0 < m1 := Rx.nonNullable_pos hbody rfl
  rcases Rx.startsIn_head hbody startsIn_dateBody hpos with ⟨c0, hc0, hw0⟩
  rcases Rx.endsIn_last hbody endsIn_dateBody hpos with ⟨c1, hc1, hw1⟩
  rcases Rx.Path.last_mem hbody hpos with ⟨c2, hc2, hl2⟩
  have hceq : c2 = c1 := by
    rw [hc1] at hc2
    exact (Option.some.inj hc2).symm
  subst hceq
  have harith : 0 + m1 = m1 := by omega
  rw [harith] at hg hlen
  have hghead : g.head? = some c0 := by
    rw [hg, Helpers.head_take_pos hpos]
    exact hc0
  have hglast : g.getLast? = some c2 := by
    rw [hg]
    exact hl2
  have hstrip : Py.strip g = g := by
    apply Helpers.stripP_eq_self
    · intro c hc
      rw [hghead] at hc
      rw [← Option.some.inj hc]
      exact Helpers.word_not_ws c0 hw0
    · intro c hc
      rw [hglast] at hc
      rw [← Option.some.inj hc]
      exact Helpers.word_not_ws c2 hw1
  have hdropnil : (tail.take m1).drop m1 = [] := by
    apply List.drop_eq_nil_of_le
    rw [List.length_take]
    omega
  have htr := Rx.Path.truncate hbody rfl []
  rw [List.append_nil] at htr
  have hpc := Rx.Path.prev_change htr rfl none
  rw [if_neg (by omega)] at hpc
  have hb1 : Rx.boundary none (tail.take m1).head? = true := by
    rw [Helpers.head_take_pos hpos, hc0]
    simp [Rx.boundary, hw0]
  have hb2 : Rx.boundary p1 ((tail.take m1).drop m1).head? = true := by
    rw [hdropnil, hc1]
    simp [Rx.boundary, hw1]
  have hinner : Rx.Path (.seq dateBody .wb) ((tail.take m1).drop 0) none (m1 + 0) p1 := by
    rw [List.drop_zero]
    exact Rx.Path.seq hpc (Rx.Path.wb hb2)
  have hfull : Rx.Path dateRE (tail.take m1) none (0 + (m1 + 0)) p1 :=
    Rx.Path.seq (Rx.Path.wb hb1) hinner
  have harith2 : 0 + (m1 + 0) = m1 := by omega
  have hk : (fun (r : List Char) (_ : Option Char) => if r.isEmpty then some () else none)
      ((tail.take m1).drop (0 + (m1 + 0))) p1 = some () := by
    rw [harith2, hdropnil]
    rfl
  have hrun := Rx.run_complete hfull
    (fun (r : List Char) (_ : Option Char) => if r.isEmpty then some () else none) () hk
  have hfm : Rx.fullmatchB dateRE g = true := by
    rw [hg]
    exact hrun
  show (Rx.fullmatchB dateRE (Py.strip g) || Rx.searchB dateRE (Py.strip g)) = true
  rw [hstrip, hfm]
  simp

end IdParser

namespace IdParser

open Py Rx

theorem assignKey_dob (out : PDict) (key : String) (v : List Char)
    (hP : ∀ w, dget out "dob" = some w → isDate w = true) :
    ∀ w, dget (assignKey out key v) "dob" = some w → isDate w = true := by
  intro w hw
  unfold assignKey at hw
  by_cases h1 : key = "website"
  · subst h1
    rw [if_pos rfl] at hw
    rw [dget_dset_ne _ _ _ _ (by decide)] at hw
    exact hP w hw
  · rw [if_neg h1] at hw
    by_cases h2 : key = "phone"
    · subst h2
      rw [if_pos rfl] at hw
      rw [dget_dset_ne _ _ _ _ (by decide)] at hw
      exact hP w hw
    · rw [if_neg h2] at hw
      by_cases h3 : key = "address"
      · subst h3
        rw [if_pos rfl] at hw
        have hw2 : dget (dset out "address"
            (Py.stripP (fun c => c = ' ' || c = '.' || c = ',')
              (Py.sub2ws (subDotGo (subCommaGo false v))))) "dob" = some w := hw
        rw [dget_dset_ne _ _ _ _ (by decide)] at hw2
        exact hP w hw2
      · rw [if_neg h3] at hw
        by_cases h4 : key = "dob"
        · subst h4
          rw [if_pos rfl] at hw
          by_cases h5 : isDate v = true
          · rw [if_pos h5] at hw
            rw [dget_dset_self] at hw
            rw [← Option.some.inj hw]
            exact h5
          · rw [if_neg h5] at hw
            exact hP w hw
        · rw [if_neg h4] at hw
          by_cases h6 : key = "adm_no"
          · subst h6
            rw [if_pos rfl] at hw
            rw [dget_dset_ne _ _ _ _ (by decide)] at hw
            exact hP w hw
          · rw [if_neg h6] at hw
            by_cases h7 : key = "card_type"
            · subst h7
              rw [if_pos rfl] at hw
              rw [dget_dset_ne _ _ _ _ (by decide)] at hw
              exact hP w hw
            · rw [if_neg h7] at hw
              rw [dget_dset_ne _ _ _ _ (fun he => h4 he.symm)] at hw
              exact hP w hw

theorem assignPending_dob : ∀ (ks : List String) (vs : List (List Char)) (out : PDict),
    (∀ w, dget out "dob" = some w → isDate w = true) →
    ∀ w, dget (assignPending out ks vs) "dob" = some w → isDate w = true := by
  intro ks
  induction ks with
  | nil =>
    intro vs out hP w hw
    exact hP w hw
  | cons key ks ih =>
    intro vs out hP w hw
    cases vs with
    | nil => exact hP w hw
    | cons v0 vs2 =>
      cases vs2 with
      | nil =>
        simp only [assignPending] at hw
        split at hw
        · exact hP w hw
        · exact ih [] _ (assignKey_dob _ _ _ hP) w hw
      | cons v2 vs3 =>
        simp only [assignPending] at hw
        split at hw
        · exact ih vs3 _ (assignKey_dob _ _ _ hP) w hw
        · exact ih (v2 :: vs3) _ (assignKey_dob _ _ _ hP) w hw

theorem walkStep_dob (st : WalkSt) (ln : List Char)
    (hln : sameLineDobEmpty ln = true)
    (hP : ∀ w, dget st.1 "dob" = some w → isDate w = true) :
    ∀ w, dget (walkStep st ln).1 "dob" = some w → isDate w = true := by
  obtain ⟨out, pending, values⟩ := st
  intro w hw
  simp only [walkStep] at hw
  cases hcl : classify (cleanSpaces ln) with
  | none =>
    rw [hcl] at hw
    dsimp only at hw
    exact hP w hw
  | some kv =>
    obtain ⟨key, rem⟩ := kv
    rw [hcl] at hw
    dsimp only at hw
    by_cases hne : cleanSpaces rem = []
    · rw [if_neg (fun hcon => hcon hne)] at hw
      dsimp only at hw
      exact hP w hw
    · rw [if_pos hne] at hw
      dsimp only at hw
      have hkey : key ≠ "dob" := by
        simp only [sameLineDobEmpty, hcl, Bool.or_eq_true, decide_eq_true_eq] at hln
        rcases hln with hk | hv
        · exact hk
        · exact absurd hv hne
      rw [dget_dset_ne _ _ _ _ (fun he => hkey he.symm)] at hw
      exact hP w hw

theorem foldl_walk_dob : ∀ (lines : List (List Char)) (st : WalkSt),
    lines.all sameLineDobEmpty = true →
    (∀ w, dget st.1 "dob" = some w → isDate w = true) →
    ∀ w, dget ((lines.foldl walkStep st).1) "dob" = some w → isDate w = true := by
  intro lines
  induction lines with
  | nil =>
    intro st _ hP
    exact hP
  | cons ln rest ih =>
    intro st hall hP
    rw [List.foldl_cons]
    rw [List.all_cons, Bool.and_eq_true] at hall
    exact ih (walkStep st ln) hall.2 (walkStep_dob st ln hall.1 hP)

theorem out1_dob (lines : List (List Char)) :
    dget (if mergeHeaderSchool lines ≠ [] then
        dset (if lines.any (fun ln => searchB idCardRE ln) then
            dsetdefault [] "card_type" "STUDENT ID CARD".toList else [])
          "school" (mergeHeaderSchool lines)
      else (if lines.any (fun ln => searchB idCardRE ln) then
            dsetdefault [] "card_type" "STUDENT ID CARD".toList else [])) "dob" = none := by
  have hbase : dget (if lines.any (fun ln => searchB idCardRE ln) then
      dsetdefault [] "card_type" "STUDENT ID CARD".toList else []) "dob" = none := by
    split
    · decide
    · rfl
  split
  · rw [dget_dset_ne _ _ _ _ (by decide)]
    exact hbase
  · exact hbase

theorem labelPhase_dob (lines : List (List Char))
    (hall : lines.all sameLineDobEmpty = true) :
    ∀ w, dget (labelPhase lines) "dob" = some w → isDate w = true := by
  intro w hw
  simp only [labelPhase] at hw
  exact assignPending_dob _ _ _
    (foldl_walk_dob lines _ hall
      (fun w2 hw2 => Option.noConfusion ((out1_dob lines).symm.trans hw2))) w hw

theorem fbDob_dob (blob : List Char) (d : PDict)
    (hP : ∀ w, dget d "dob" = some w → isDate w = true) :
    ∀ w, dget (fbDob blob d) "dob" = some w → isDate w = true := by
  intro w hw
  unfold fbDob at hw
  cases hhas : dhas d "dob"
  · rw [hhas] at hw
    rw [if_pos (show (!false) = true from rfl)] at hw
    cases hsd : Rx.search dateRE blob with
    | some gr =>
      obtain ⟨g, r⟩ := gr
      rw [hsd] at hw
      have hw2 : dget (dset d "dob" g) "dob" = some w := hw
      rw [dget_dset_self] at hw2
      rw [← Option.some.inj hw2]
      exact date_search_isDate hsd
    | none =>
      rw [hsd] at hw
      exact hP w hw
  · rw [hhas] at hw
    rw [if_neg (show ¬((!true) = true) from fun hc => by cases hc)] at hw
    exact hP w hw

theorem fallback_dob (lines : List (List Char)) (out3 : PDict)
    (hP : ∀ w, dget out3 "dob" = some w → isDate w = true) :
    ∀ w, dget (fallbackPhase lines out3) "dob" = some w → isDate w = true := by
  intro w hw
  simp only [fallbackPhase] at hw
  rw [fbCard_ne _ _ (by decide), fbSite2_ne _ _ (by decide), fbPhone_ne _ _ (by decide),
    fbAdm_ne _ _ _ (by decide)] at hw
  refine fbDob_dob _ _ ?_ w hw
  intro w2 hw2
  rw [fbWebsite_ne _ _ _ (by decide), fbEmail_ne _ _ _ (by decide)] at hw2
  exact hP w2 hw2

end IdParser

/-- C5 (amended): the date-shape gate guards only the pending-label path
and the fallback-mining path, not the same-line path.  Whenever no
surviving line carries a same-line `dob` value (the label may still occur
with an empty remainder, sending it to `pending`), every `dob` value that
`parse_id_fields` returns is date-shaped. -/
theorem C5_amended (text : List Char)
    (hall : (IdParser.goodLinesOf text).all IdParser.sameLineDobEmpty = true) :
    ∀ d, IdParser.dget (IdParser.parseIdFields text) "dob" = some d →
      IdParser.isDate d = true := by
  intro d hd
  have h1 := IdParser.labelPhase_dob (IdParser.goodLinesOf text) hall
  have h2 := IdParser.fallback_dob (IdParser.goodLinesOf text) _ h1
  exact h2 d hd

/-- C5 witness: on the text "DOB :" / "05/12/1999" the dob label is
pending (no same-line value) and the next line passes the date gate, so
`parse_id_fields` stores it; the amended theorem applies and confirms the
stored value is date-shaped. -/
theorem C5_witness :
    ((IdParser.goodLinesOf "DOB :\n05/12/1999".toList).all
        IdParser.sameLineDobEmpty = true ∧
      IdParser.dget (IdParser.parseIdFields "DOB :\n05/12/1999".toList) "dob" =
        some "05/12/1999".toList) ∧
    IdParser.isDate "05/12/1999".toList = true :=
  ⟨⟨by decide, by decide⟩,
    C5_amended "DOB :\n05/12/1999".toList (by decide) "05/12/1999".toList (by decide)⟩
